import Mathlib

/-!
Verification of the alignment-and-projection subsystem of the grammar-correction
pipeline (`app/processor.py`).  The Python code is shallowly embedded: strings
become `List Char` (the ASCII fragment of Python semantics: `\w` is
`[A-Za-z0-9_]`, `str.lower` is `Char.toLower`, `str.strip` trims ASCII
whitespace), `difflib.Differ` (as instantiated by `Differ()` in
`identify_corrections`, i.e. with `linejunk = charjunk = None`) is embedded by
`differCompare` below, and the float ratios of `difflib` are modelled exactly in
`ℚ` (all ratios arising here have tiny denominators, so float and exact
comparisons agree).
-/

namespace GrammarProc

/-! ## Python character and string helpers -/

/-- Python `\w` on the ASCII fragment: `[A-Za-z0-9_]`. -/
def isWordChar (c : Char) : Bool := c.isAlphanum || c == '_'

/-- Python `str.isspace` characters removed by `str.strip()` (ASCII fragment). -/
def isPySpace (c : Char) : Bool :=
  c == ' ' || c == '\t' || c == '\n' || c == '\r' || c == '\x0b' || c == '\x0c'

/-- Python `str.strip()`. -/
def pyStrip (s : List Char) : List Char :=
  ((s.dropWhile isPySpace).reverse.dropWhile isPySpace).reverse

/-- Python `str.lower()` (ASCII fragment). -/
def lowerStr (s : List Char) : List Char := s.map Char.toLower

/-- Convenience: the character list of a string literal. -/
def sl (s : String) : List Char := s.data

/-- The maximal word-character runs of a text, in order: the word tokens kept by
`re.findall(r'(\b\w+\b|\W+)', text)` after filtering with
`re.fullmatch(r'\b\w+\b', token)`.  A word character extends the current run
when the next character is also a word character, otherwise it closes a run;
separator characters are dropped. -/
def wordRuns : List Char → List (List Char)
  | [] => []
  | c :: cs =>
    if isWordChar c then
      match cs, wordRuns cs with
      | d :: _, run :: runs => if isWordChar d then (c :: run) :: runs else [c] :: run :: runs
      | _, r => [c] :: r
    else wordRuns cs

/-- `original_words` / `corrected_words` in `identify_corrections`:
lower-cased word tokens. -/
def wordsOf (t : List Char) : List (List Char) := (wordRuns t).map lowerStr

/-- Python `" ".join(l)`. -/
def joinSpace : List (List Char) → List Char
  | [] => []
  | [w] => w
  | w :: v :: ws => w ++ ' ' :: joinSpace (v :: ws)

/-- Python list slicing `l[s:e]` (clamping semantics for `0 ≤ s, e`). -/
def pySlice (l : List (List Char)) (s e : Nat) : List (List Char) :=
  (l.take e).drop s

/-- Python `str.split(" ")` (splitting on every single space). -/
def spaceSplit : List Char → List (List Char)
  | [] => [[]]
  | c :: cs =>
    match spaceSplit cs, c == ' ' with
    | r, true => [] :: r
    | [], false => [[c]]
    | p :: ps, false => (c :: p) :: ps

/-! ## The data model -/

/-- The public `Correction` record of `identify_corrections`. -/
structure Correction where
  originalWord : List Char
  correctedWord : List Char
  originalContext : List Char
  correctedContext : List Char
deriving DecidableEq, Repr

/-- One line of `difflib.Differ.compare` output, as consumed by
`identify_corrections` (`'? '` guide lines are skipped by the consumer and are
not produced here): `same w` is a `'  '` line, `del w` a `'- '` line,
`ins w` a `'+ '` line. -/
inductive DOp (α : Type) where
  | same (w : α)
  | del (w : α)
  | ins (w : α)
deriving DecidableEq, Repr

/-! ## SequenceMatcher (difflib), junk-free instantiation

`Differ()` passes `linejunk = None` and `charjunk = None`, so `bjunk = ∅` at
both the word and the character level, and the only "junk" effect is the
autojunk popularity pruning of `b2j` (active when `len(b) ≥ 200`).  The
popularity predicate is threaded through as `pop`. -/

variable {α : Type} [DecidableEq α]

/-- The autojunk popularity predicate of `SequenceMatcher.__chain_b`:
an element of `b` is "popular" (pruned from `b2j`) iff `len(b) ≥ 200` and it
occurs more than `len(b) // 100 + 1` times in `b`. -/
def popularIn (b : List α) (x : α) : Bool :=
  200 ≤ b.length && b.length / 100 + 1 < b.count x

/-- Length of the longest junk-free matching run starting at the heads: the
diagonal chain of `find_longest_match` only passes through cells whose `b`-side
element is in `b2j`, i.e. not popular. -/
def njRunLen (pop : α → Bool) : List α → List α → Nat
  | x :: xs, y :: ys => if x = y ∧ pop y = false then njRunLen pop xs ys + 1 else 0
  | _, _ => 0

/-- Candidate value of `find_longest_match` at start cell `(i, j)`. -/
def candAt (pop : α → Bool) (a b : List α) (i j : Nat) : Nat :=
  njRunLen pop (a.drop i) (b.drop j)

/-- Inner loop of the `find_longest_match` scan: columns `0 ≤ j < jmax` of row
`i`, in ascending order, keeping the first strictly greater candidate. -/
def bestRow (pop : α → Bool) (a b : List α) (i : Nat) :
    Nat → Nat × Nat × Nat → Nat × Nat × Nat
  | 0, best => best
  | jmax + 1, best =>
    let best' := bestRow pop a b i jmax best
    if best'.2.2 < candAt pop a b i jmax then (i, jmax, candAt pop a b i jmax) else best'

/-- Outer loop of the `find_longest_match` scan: rows `0 ≤ i < imax` in
ascending order. -/
def bestRows (pop : α → Bool) (a b : List α) :
    Nat → Nat × Nat × Nat → Nat × Nat × Nat
  | 0, best => best
  | imax + 1, best => bestRow pop a b imax b.length (bestRows pop a b imax best)

/-- The junk-free longest-block scan of `find_longest_match`: of all maximal
junk-free matching blocks, the one starting earliest in `a`, then earliest in
`b`; `(0, 0, 0)` if none. -/
def bestCore (pop : α → Bool) (a b : List α) : Nat × Nat × Nat :=
  bestRows pop a b a.length (0, 0, 0)

/-- Backward extension of the best block (`bjunk = ∅`, so the "non-junk" first
`while` loop extends over every matching pair of adjacent elements and the
junk loop never fires). -/
def extendBack (a b : List α) : Nat → Nat → Nat → Nat × Nat × Nat
  | i + 1, j + 1, k =>
    match a[i]?, b[j]? with
    | some x, some y =>
      if x = y then extendBack a b i j (k + 1) else (i + 1, j + 1, k)
    | _, _ => (i + 1, j + 1, k)
  | i, j, k => (i, j, k)

/-- Forward extension of the best block (fuelled; `fuel = a.length + 1` always
suffices since `i + k` strictly increases up to `a.length`). -/
def extendFwd (a b : List α) (i j : Nat) : Nat → Nat → Nat
  | k, 0 => k
  | k, fuel + 1 =>
    match a[i + k]?, b[j + k]? with
    | some x, some y => if x = y then extendFwd a b i j (k + 1) fuel else k
    | _, _ => k

/-- `find_longest_match` over the whole windows `a`, `b` with the popularity
predicate `pop`: junk-free scan, then extension by equal elements on both
ends. -/
def bestBlockExt (pop : α → Bool) (a b : List α) : Nat × Nat × Nat :=
  let c := bestCore pop a b
  let e := extendBack a b c.1 c.2.1 c.2.2
  (e.1, e.2.1, extendFwd a b e.1 e.2.1 e.2.2 (a.length + 1))

/-! ### Validity of the computed block -/

/-- A block `(i, j, k)` is valid: the two segments agree and lie inside the
sequences. -/
def blockOk (a b : List α) (i j k : Nat) : Prop :=
  (a.drop i).take k = (b.drop j).take k ∧ i + k ≤ a.length ∧ j + k ≤ b.length

theorem blockOk_zero (a b : List α) : blockOk a b 0 0 0 := by
  refine ⟨rfl, ?_, ?_⟩ <;> simp

theorem njRunLen_le_left (pop : α → Bool) :
    ∀ x y : List α, njRunLen pop x y ≤ x.length := by
  intro x
  induction x with
  | nil => intro y; cases y <;> simp [njRunLen]
  | cons c cs ih =>
    intro y
    cases y with
    | nil => simp [njRunLen]
    | cons d ds =>
      by_cases h : c = d ∧ pop d = false
      · simpa [njRunLen, h] using ih ds
      · simp [njRunLen, h]

theorem njRunLen_le_right (pop : α → Bool) :
    ∀ x y : List α, njRunLen pop x y ≤ y.length := by
  intro x
  induction x with
  | nil => intro y; cases y <;> simp [njRunLen]
  | cons c cs ih =>
    intro y
    cases y with
    | nil => simp [njRunLen]
    | cons d ds =>
      by_cases h : c = d ∧ pop d = false
      · simpa [njRunLen, h] using ih ds
      · simp [njRunLen, h]

theorem njRunLen_take (pop : α → Bool) :
    ∀ x y : List α, x.take (njRunLen pop x y) = y.take (njRunLen pop x y) := by
  intro x
  induction x with
  | nil => intro y; cases y <;> simp [njRunLen]
  | cons c cs ih =>
    intro y
    cases y with
    | nil => simp [njRunLen]
    | cons d ds =>
      by_cases h : c = d ∧ pop d = false
      · have hstep : njRunLen pop (c :: cs) (d :: ds) = njRunLen pop cs ds + 1 := by
          simp [njRunLen, h]
        rw [hstep, List.take_succ_cons, List.take_succ_cons, h.1, ih ds]
      · simp [njRunLen, h]

theorem candAt_blockOk (pop : α → Bool) (a b : List α) (i j : Nat)
    (hk : 0 < candAt pop a b i j) : blockOk a b i j (candAt pop a b i j) := by
  have hle : candAt pop a b i j ≤ (a.drop i).length := njRunLen_le_left _ _ _
  have hri : candAt pop a b i j ≤ (b.drop j).length := njRunLen_le_right _ _ _
  have hia : i ≤ a.length := by
    by_contra hlt
    push_neg at hlt
    have : (a.drop i).length = 0 := by
      simp [List.length_drop]
      omega
    omega
  have hjb : j ≤ b.length := by
    by_contra hlt
    push_neg at hlt
    have : (b.drop j).length = 0 := by
      simp [List.length_drop]
      omega
    omega
  refine ⟨njRunLen_take pop _ _, ?_, ?_⟩
  · have := List.length_drop i a
    omega
  · have := List.length_drop j b
    omega

theorem bestRow_ok (pop : α → Bool) (a b : List α) (i : Nat) :
    ∀ (jmax : Nat) (best : Nat × Nat × Nat),
      blockOk a b best.1 best.2.1 best.2.2 →
      blockOk a b (bestRow pop a b i jmax best).1 (bestRow pop a b i jmax best).2.1
        (bestRow pop a b i jmax best).2.2 := by
  intro jmax
  induction jmax with
  | zero => intro best h; simpa [bestRow] using h
  | succ j ih =>
    intro best h
    simp only [bestRow]
    set best' := bestRow pop a b i j best with hb
    by_cases hcmp : best'.2.2 < candAt pop a b i j
    · simp only [if_pos hcmp]
      exact candAt_blockOk pop a b i j (Nat.lt_of_le_of_lt (Nat.zero_le _) hcmp)
    · simp only [if_neg hcmp]
      exact ih best h

theorem bestRows_ok (pop : α → Bool) (a b : List α) :
    ∀ (imax : Nat) (best : Nat × Nat × Nat),
      blockOk a b best.1 best.2.1 best.2.2 →
      blockOk a b (bestRows pop a b imax best).1 (bestRows pop a b imax best).2.1
        (bestRows pop a b imax best).2.2 := by
  intro imax
  induction imax with
  | zero => intro best h; simpa [bestRows] using h
  | succ i ih =>
    intro best h
    simp only [bestRows]
    exact bestRow_ok pop a b i b.length (bestRows pop a b i best) (ih best h)

theorem bestCore_ok (pop : α → Bool) (a b : List α) :
    blockOk a b (bestCore pop a b).1 (bestCore pop a b).2.1 (bestCore pop a b).2.2 :=
  bestRows_ok pop a b a.length (0, 0, 0) (blockOk_zero a b)

theorem extendBack_ok (a b : List α) :
    ∀ (i j k : Nat), blockOk a b i j k →
      blockOk a b (extendBack a b i j k).1 (extendBack a b i j k).2.1
        (extendBack a b i j k).2.2 := by
  intro i
  induction i with
  | zero =>
    intro j k h
    cases j <;> simpa [extendBack] using h
  | succ i ih =>
    intro j k h
    cases j with
    | zero => simpa [extendBack] using h
    | succ j =>
      simp only [extendBack]
      cases hx : a[i]? with
      | none => simpa using h
      | some x =>
        cases hy : b[j]? with
        | none => simpa using h
        | some y =>
          by_cases hxy : x = y
          · simp only [if_pos hxy]
            apply ih
            obtain ⟨hia, hxv⟩ := List.getElem?_eq_some_iff.mp hx
            obtain ⟨hjb, hyv⟩ := List.getElem?_eq_some_iff.mp hy
            obtain ⟨hc, h1, h2⟩ := h
            refine ⟨?_, by omega, by omega⟩
            rw [List.drop_eq_getElem_cons hia, List.drop_eq_getElem_cons hjb]
            simp only [List.take_succ_cons]
            rw [hxv, hyv, hxy, hc]
          · simpa [if_neg hxy] using h

theorem extendFwd_ok (a b : List α) (i j : Nat) :
    ∀ (fuel k : Nat), blockOk a b i j k →
      blockOk a b i j (extendFwd a b i j k fuel) := by
  intro fuel
  induction fuel with
  | zero => intro k h; simpa [extendFwd] using h
  | succ fuel ih =>
    intro k h
    simp only [extendFwd]
    cases hx : a[i + k]? with
    | none => simpa using h
    | some x =>
      cases hy : b[j + k]? with
      | none => simpa using h
      | some y =>
        by_cases hxy : x = y
        · simp only [if_pos hxy]
          apply ih
          obtain ⟨hia, hxv⟩ := List.getElem?_eq_some_iff.mp hx
          obtain ⟨hjb, hyv⟩ := List.getElem?_eq_some_iff.mp hy
          obtain ⟨hc, h1, h2⟩ := h
          refine ⟨?_, by omega, by omega⟩
          rw [List.take_succ, List.take_succ, hc]
          have hgx : (a.drop i)[k]? = some x := by
            rw [List.getElem?_drop]; exact hx
          have hgy : (b.drop j)[k]? = some y := by
            rw [List.getElem?_drop]; exact hy
          rw [hgx, hgy, hxy]
        · simpa [if_neg hxy] using h

/-- The block returned by `bestBlockExt` is valid. -/
theorem bestBlockExt_ok (pop : α → Bool) (a b : List α) :
    blockOk a b (bestBlockExt pop a b).1 (bestBlockExt pop a b).2.1
      (bestBlockExt pop a b).2.2 := by
  have h1 := bestCore_ok pop a b
  have h2 := extendBack_ok a b _ _ _ h1
  exact extendFwd_ok a b _ _ _ _ h2

/-! ### On identical sequences the best block is the whole sequence -/

theorem njRunLen_nil_right (pop : α → Bool) (x : List α) : njRunLen pop x [] = 0 := by
  cases x <;> simp [njRunLen]

theorem njRunLen_self_left (pop : α → Bool) :
    ∀ x y : List α, njRunLen pop x y ≤ njRunLen pop x x := by
  intro x
  induction x with
  | nil => intro y; cases y <;> simp [njRunLen]
  | cons c cs ih =>
    intro y
    cases y with
    | nil => simp [njRunLen]
    | cons d ds =>
      by_cases h : c = d ∧ pop d = false
      · have hc : c = c ∧ pop c = false := ⟨rfl, h.1 ▸ h.2⟩
        have hl : njRunLen pop (c :: cs) (d :: ds) = njRunLen pop cs ds + 1 := by
          simp [njRunLen, h]
        have hr : njRunLen pop (c :: cs) (c :: cs) = njRunLen pop cs cs + 1 := by
          simp [njRunLen, hc]
        rw [hl, hr]
        exact Nat.succ_le_succ (ih ds)
      · simp [njRunLen, h]

theorem njRunLen_self_right (pop : α → Bool) :
    ∀ x y : List α, njRunLen pop x y ≤ njRunLen pop y y := by
  intro x
  induction x with
  | nil => intro y; cases y <;> simp [njRunLen]
  | cons c cs ih =>
    intro y
    cases y with
    | nil => simp [njRunLen]
    | cons d ds =>
      by_cases h : c = d ∧ pop d = false
      · have hd : d = d ∧ pop d = false := ⟨rfl, h.2⟩
        have hl : njRunLen pop (c :: cs) (d :: ds) = njRunLen pop cs ds + 1 := by
          simp [njRunLen, h]
        have hr : njRunLen pop (d :: ds) (d :: ds) = njRunLen pop ds ds + 1 := by
          simp [njRunLen, hd]
        rw [hl, hr]
        exact Nat.succ_le_succ (ih ds)
      · simp [njRunLen, h]

theorem candAt_self_left (pop : α → Bool) (a : List α) (i j : Nat) :
    candAt pop a a i j ≤ candAt pop a a i i :=
  njRunLen_self_left pop (a.drop i) (a.drop j)

theorem candAt_self_right (pop : α → Bool) (a : List α) (i j : Nat) :
    candAt pop a a i j ≤ candAt pop a a j j :=
  njRunLen_self_right pop (a.drop i) (a.drop j)

/-- On identical sequences, a best candidate is either the initial zero triple
or lies on the diagonal. -/
def selfDiag (best : Nat × Nat × Nat) : Prop :=
  (best.2.2 = 0 → best = (0, 0, 0)) ∧ (0 < best.2.2 → best.1 = best.2.1)

theorem bestRow_self (pop : α → Bool) (a : List α) (i : Nat) :
    ∀ (jmax : Nat) (best : Nat × Nat × Nat), selfDiag best →
      (∀ i' j', i' < i → candAt pop a a i' j' ≤ best.2.2) →
      selfDiag (bestRow pop a a i jmax best) ∧
      (∀ i' j', i' < i → candAt pop a a i' j' ≤ (bestRow pop a a i jmax best).2.2) ∧
      (∀ j', j' < jmax → candAt pop a a i j' ≤ (bestRow pop a a i jmax best).2.2) ∧
      best.2.2 ≤ (bestRow pop a a i jmax best).2.2 := by
  intro jmax
  induction jmax with
  | zero =>
    intro best hd hcov
    exact ⟨hd, hcov, fun j' h => absurd h (Nat.not_lt_zero j'), le_refl _⟩
  | succ jmax ih =>
    intro best hd hcov
    obtain ⟨hd', hcov', hpart', hmono'⟩ := ih best hd hcov
    simp only [bestRow]
    set r' := bestRow pop a a i jmax best with hr'
    by_cases hcmp : r'.2.2 < candAt pop a a i jmax
    · simp only [if_pos hcmp]
      have hij : i = jmax := by
        rcases Nat.lt_trichotomy i jmax with hlt | heq | hgt
        · exfalso
          have h1 : candAt pop a a i jmax ≤ candAt pop a a i i := candAt_self_left pop a i jmax
          have h2 : candAt pop a a i i ≤ r'.2.2 := hpart' i hlt
          omega
        · exact heq
        · exfalso
          have h1 : candAt pop a a i jmax ≤ candAt pop a a jmax jmax :=
            candAt_self_right pop a i jmax
          have h2 : candAt pop a a jmax jmax ≤ r'.2.2 := hcov' jmax jmax hgt
          omega
      refine ⟨⟨?_, ?_⟩, ?_, ?_, ?_⟩
      · intro hz
        simp only at hz
        omega
      · intro _
        simpa using hij
      · intro i' j' h
        exact le_of_lt (Nat.lt_of_le_of_lt (hcov' i' j' h) hcmp)
      · intro j' h
        rcases Nat.lt_succ_iff_lt_or_eq.mp h with h' | h'
        · exact le_of_lt (Nat.lt_of_le_of_lt (hpart' j' h') hcmp)
        · subst h'
          exact le_refl _
      · exact le_of_lt (Nat.lt_of_le_of_lt hmono' hcmp)
    · simp only [if_neg hcmp]
      refine ⟨hd', hcov', ?_, hmono'⟩
      intro j' h
      rcases Nat.lt_succ_iff_lt_or_eq.mp h with h' | h'
      · exact hpart' j' h'
      · subst h'
        omega

theorem bestRows_self (pop : α → Bool) (a : List α) :
    ∀ (imax : Nat) (best : Nat × Nat × Nat), selfDiag best →
      (∀ i' j', candAt pop a a i' j' ≤ best.2.2 ∨ ¬ i' < 0) →
      selfDiag (bestRows pop a a imax best) ∧
      (∀ i' j', i' < imax → candAt pop a a i' j' ≤ (bestRows pop a a imax best).2.2) := by
  intro imax
  induction imax with
  | zero =>
    intro best hd _
    exact ⟨by simpa [bestRows] using hd, fun i' j' h => absurd h (Nat.not_lt_zero i')⟩
  | succ imax ih =>
    intro best hd hcov
    obtain ⟨hd', hcov'⟩ := ih best hd hcov
    simp only [bestRows]
    obtain ⟨hd2, hcov2, hpart2, hmono2⟩ :=
      bestRow_self pop a imax a.length (bestRows pop a a imax best) hd' hcov'
    refine ⟨hd2, ?_⟩
    intro i' j' h
    rcases Nat.lt_succ_iff_lt_or_eq.mp h with h' | h'
    · exact hcov2 i' j' h'
    · subst h'
      by_cases hj : j' < a.length
      · exact hpart2 j' hj
      · have : a.drop j' = [] := List.drop_eq_nil_of_le (Nat.le_of_not_lt hj)
        have hz : candAt pop a a i' j' = 0 := by
          unfold candAt
          rw [this, njRunLen_nil_right]
        omega

theorem bestCore_selfDiag (pop : α → Bool) (a : List α) : selfDiag (bestCore pop a a) := by
  have h := bestRows_self pop a a.length (0, 0, 0)
    ⟨fun _ => rfl, fun h => absurd h (by simp)⟩ (fun i' j' => Or.inr (Nat.not_lt_zero i'))
  exact h.1

theorem extendBack_self (a : List α) :
    ∀ (i k : Nat), i ≤ a.length → extendBack a a i i k = (0, 0, k + i) := by
  intro i
  induction i with
  | zero => intro k _; rfl
  | succ i ih =>
    intro k hle
    have hi : i < a.length := hle
    have hget : a[i]? = some a[i] := List.getElem?_eq_getElem hi
    simp only [extendBack, hget]
    rw [if_pos trivial, ih (k + 1) (Nat.le_of_lt hi)]
    have : k + 1 + i = k + (i + 1) := by omega
    rw [this]

theorem extendFwd_self (a : List α) :
    ∀ (fuel k : Nat), k ≤ a.length → a.length - k < fuel →
      extendFwd a a 0 0 k fuel = a.length := by
  intro fuel
  induction fuel with
  | zero => intro k _ h; omega
  | succ fuel ih =>
    intro k hk hfuel
    by_cases hlt : k < a.length
    · have hget : a[0 + k]? = some a[k] := by
        simp only [Nat.zero_add]
        exact List.getElem?_eq_getElem hlt
      simp only [extendFwd, hget]
      rw [if_pos trivial]
      exact ih (k + 1) hlt (by omega)
    · have hke : k = a.length := by omega
      have hget : a[0 + k]? = none := by
        simp only [Nat.zero_add]
        exact List.getElem?_eq_none (by omega)
      simp only [extendFwd, hget]
      exact hke

/-- On identical sequences, `find_longest_match` returns the whole sequence:
either the junk-free scan finds a (necessarily diagonal) block, which the
equal-element extension loops grow to the whole window, or it finds nothing
and the forward extension grows the empty block at `(0, 0)` over the whole
window. -/
theorem bestBlockExt_self (pop : α → Bool) (a : List α) :
    bestBlockExt pop a a = (0, 0, a.length) := by
  rcases h : bestCore pop a a with ⟨i, j, k⟩
  have hdiag := bestCore_selfDiag pop a
  have hok := bestCore_ok pop a a
  rw [h] at hdiag hok
  have hik : i + k ≤ a.length := hok.2.1
  simp only [bestBlockExt, h]
  by_cases hk : k = 0
  · have hzero : (i, j, k) = (0, 0, 0) := hdiag.1 hk
    have hi0 : i = 0 := by
      have h' := congrArg (fun p : Nat × Nat × Nat => p.1) hzero
      simpa using h'
    have hj0 : j = 0 := by
      have h' := congrArg (fun p : Nat × Nat × Nat => p.2.1) hzero
      simpa using h'
    subst hi0
    subst hj0
    subst hk
    show (0, 0, extendFwd a a 0 0 0 (a.length + 1)) = (0, 0, a.length)
    rw [extendFwd_self a (a.length + 1) 0 (Nat.zero_le _) (by omega)]
  · have hij : i = j := hdiag.2 (Nat.pos_of_ne_zero hk)
    subst hij
    have hi : i ≤ a.length := by omega
    rw [extendBack_self a i k hi]
    show (0, 0, extendFwd a a 0 0 (k + i) (a.length + 1)) = (0, 0, a.length)
    rw [extendFwd_self a (a.length + 1) (k + i) (by omega) (by omega)]

/-! ## Matching total and ratio (`SequenceMatcher.ratio`) -/

/-- Total size of all matching blocks (`get_matching_blocks` recursion over the
two windows; adjacent-block collapsing does not change the total).  The fuel
argument makes the recursion structural (kernel-computable); every recursive
call strictly shrinks `a.length + b.length`, so `a.length + b.length + 1` fuel
is always enough. -/
def matchTotalF (pop : α → Bool) : Nat → List α → List α → Nat
  | 0, _, _ => 0
  | fuel + 1, a, b =>
    match bestBlockExt pop a b with
    | (i, j, k) =>
      if k = 0 then 0
      else
        matchTotalF pop fuel (a.take i) (b.take j) + k +
          matchTotalF pop fuel (a.drop (i + k)) (b.drop (j + k))

/-- Total size of all matching blocks of `SequenceMatcher` (with popularity
predicate `pop`). -/
def matchTotal (pop : α → Bool) (a b : List α) : Nat :=
  matchTotalF pop (a.length + b.length + 1) a b

/-- `SequenceMatcher.ratio()` of two strings (exact rational model of the float
`2.0 * M / T`; `1.0` when both strings are empty). -/
def ratioQ (x y : List Char) : ℚ :=
  if x.length + y.length = 0 then 1
  else mkRat (2 * matchTotal (popularIn y) x y) (x.length + y.length)

/-! ## `Differ._fancy_replace` and friends -/

/-- State of the `_fancy_replace` double scan: the best similarity ratio seen so
far (starting at `0.74`), the best non-identical pair, and the first identical
pair. -/
structure FancyState where
  bestRatio : ℚ
  bestPair : Option (Nat × Nat)
  eqPair : Option (Nat × Nat)
deriving Repr

/-- One cell `(i, j)` of the `_fancy_replace` scan. -/
def fancyCell (a b : List (List Char)) (i j : Nat) (st : FancyState) : FancyState :=
  if a.getD i [] = b.getD j [] then
    match st.eqPair with
    | none => { st with eqPair := some (i, j) }
    | some _ => st
  else if st.bestRatio < ratioQ (a.getD i []) (b.getD j []) then
    { bestRatio := ratioQ (a.getD i []) (b.getD j []), bestPair := some (i, j),
      eqPair := st.eqPair }
  else st

/-- Inner loop of the `_fancy_replace` scan: cells `(0, j) … (imax - 1, j)` in
ascending order of `i`. -/
def fancyRowScan (a b : List (List Char)) (j : Nat) : Nat → FancyState → FancyState
  | 0, st => st
  | imax + 1, st => fancyCell a b imax j (fancyRowScan a b j imax st)

/-- Outer loop of the `_fancy_replace` scan: columns `j = 0 … jmax - 1` in
ascending order, scanning all of `a` for each. -/
def fancyColsScan (a b : List (List Char)) : Nat → FancyState → FancyState
  | 0, st => st
  | jmax + 1, st => fancyRowScan a b jmax a.length (fancyColsScan a b jmax st)

/-- The full `_fancy_replace` scan. -/
def fancyScan (a b : List (List Char)) : FancyState :=
  fancyColsScan a b b.length ⟨mkRat 74 100, none, none⟩

/-- `Differ._plain_replace`: dump the shorter block first. -/
def plainReplace (a b : List (List Char)) : List (DOp (List Char)) :=
  if b.length < a.length then b.map DOp.ins ++ a.map DOp.del
  else a.map DOp.del ++ b.map DOp.ins

/-- `Differ._fancy_replace` (the `'? '` guide lines, skipped by
`identify_corrections`, are not produced).  The synch pair is the best
non-identical pair when its ratio reaches the `0.75` cutoff, else the first
identical pair, else the region is a plain replace.  The `_fancy_helper`
dispatch (dump when one side of a sub-window is empty) is inlined at the two
recursive call sites.  Fuelled to make the recursion structural; every
recursive call strictly shrinks `a.length + b.length`, so
`a.length + b.length + 1` fuel is always enough. -/
def fancyReplaceF : Nat → List (List Char) → List (List Char) → List (DOp (List Char))
  | 0, a, b => plainReplace a b
  | fuel + 1, a, b =>
    let st := fancyScan a b
    let sp : Option (Nat × Nat × Bool) :=
      if st.bestRatio < mkRat 3 4 then
        match st.eqPair with
        | none => none
        | some (ei, ej) => some (ei, ej, true)
      else
        match st.bestPair with
        | none => none
        | some (bi, bj) => some (bi, bj, false)
    match sp with
    | none => plainReplace a b
    | some (bi, bj, isEq) =>
      (if a.take bi = [] then (b.take bj).map DOp.ins
       else if b.take bj = [] then (a.take bi).map DOp.del
       else fancyReplaceF fuel (a.take bi) (b.take bj)) ++
      (if isEq then [DOp.same (a.getD bi [])]
       else [DOp.del (a.getD bi []), DOp.ins (b.getD bj [])]) ++
      (if a.drop (bi + 1) = [] then (b.drop (bj + 1)).map DOp.ins
       else if b.drop (bj + 1) = [] then (a.drop (bi + 1)).map DOp.del
       else fancyReplaceF fuel (a.drop (bi + 1)) (b.drop (bj + 1)))

/-- `Differ._fancy_replace` with enough fuel. -/
def fancyReplace (a b : List (List Char)) : List (DOp (List Char)) :=
  fancyReplaceF (a.length + b.length + 1) a b

/-- One non-`equal` opcode region of `Differ.compare`: `delete`, `insert` or
(`_fancy_replace`d) `replace`. -/
def regionOps : List (List Char) → List (List Char) → List (DOp (List Char))
  | [], [] => []
  | [], v :: vs => (v :: vs).map DOp.ins
  | w :: ws, [] => (w :: ws).map DOp.del
  | w :: ws, v :: vs => fancyReplace (w :: ws) (v :: vs)

/-- The op stream of `Differ.compare` restricted to a window pair, with the
popularity predicate fixed from the full second sequence: recursively split at
the longest match (`get_matching_blocks`), dump `'  '` lines for matched
segments and delegate the `k = 0` leaves to the region handler.  Fuelled to
make the recursion structural; every recursive call strictly shrinks
`a.length + b.length`, so `a.length + b.length + 1` fuel is always enough. -/
def diffOpsF (pop : List Char → Bool) :
    Nat → List (List Char) → List (List Char) → List (DOp (List Char))
  | 0, a, b => a.map DOp.del ++ b.map DOp.ins
  | fuel + 1, a, b =>
    match bestBlockExt pop a b with
    | (i, j, k) =>
      if k = 0 then regionOps a b
      else
        diffOpsF pop fuel (a.take i) (b.take j) ++ ((a.drop i).take k).map DOp.same ++
          diffOpsF pop fuel (a.drop (i + k)) (b.drop (j + k))

/-- `difflib.Differ().compare(a, b)` on word lists, as consumed by
`identify_corrections` (without the skipped `'? '` lines). -/
def differCompare (a b : List (List Char)) : List (DOp (List Char)) :=
  diffOpsF (popularIn b) (a.length + b.length + 1) a b

/-! ## Projections of an op stream -/

/-- The original-side word stream of a delta: one word per `'  '` or `'- '`
line, in order. -/
def origOf : List (DOp α) → List α
  | [] => []
  | DOp.same w :: r => w :: origOf r
  | DOp.del w :: r => w :: origOf r
  | DOp.ins _ :: r => origOf r

/-- The corrected-side word stream of a delta: one word per `'  '` or `'+ '`
line, in order. -/
def corrOf : List (DOp α) → List α
  | [] => []
  | DOp.same w :: r => w :: corrOf r
  | DOp.del _ :: r => corrOf r
  | DOp.ins w :: r => w :: corrOf r

/-- Number of `'  '` (match) lines of a delta. -/
def countSame : List (DOp α) → Nat
  | [] => 0
  | DOp.same _ :: r => countSame r + 1
  | _ :: r => countSame r

theorem origOf_append (xs ys : List (DOp α)) :
    origOf (xs ++ ys) = origOf xs ++ origOf ys := by
  induction xs with
  | nil => rfl
  | cons op r ih => cases op <;> simp [origOf, ih]

theorem corrOf_append (xs ys : List (DOp α)) :
    corrOf (xs ++ ys) = corrOf xs ++ corrOf ys := by
  induction xs with
  | nil => rfl
  | cons op r ih => cases op <;> simp [corrOf, ih]

theorem origOf_map_del (l : List α) : origOf (l.map DOp.del) = l := by
  induction l with
  | nil => rfl
  | cons w r ih => simp [origOf, ih]

theorem origOf_map_ins (l : List α) : origOf (l.map DOp.ins) = [] := by
  induction l with
  | nil => rfl
  | cons w r ih => simp [origOf, ih]

theorem origOf_map_same (l : List α) : origOf (l.map DOp.same) = l := by
  induction l with
  | nil => rfl
  | cons w r ih => simp [origOf, ih]

theorem corrOf_map_del (l : List α) : corrOf (l.map DOp.del) = [] := by
  induction l with
  | nil => rfl
  | cons w r ih => simp [corrOf, ih]

theorem corrOf_map_ins (l : List α) : corrOf (l.map DOp.ins) = l := by
  induction l with
  | nil => rfl
  | cons w r ih => simp [corrOf, ih]

theorem corrOf_map_same (l : List α) : corrOf (l.map DOp.same) = l := by
  induction l with
  | nil => rfl
  | cons w r ih => simp [corrOf, ih]

theorem origOf_plainReplace (a b : List (List Char)) :
    origOf (plainReplace a b) = a := by
  unfold plainReplace
  by_cases h : b.length < a.length <;>
    simp [h, origOf_append, origOf_map_del, origOf_map_ins]

theorem corrOf_plainReplace (a b : List (List Char)) :
    corrOf (plainReplace a b) = b := by
  unfold plainReplace
  by_cases h : b.length < a.length <;>
    simp [h, corrOf_append, corrOf_map_del, corrOf_map_ins]

/-! ### The `_fancy_replace` scan invariant -/

/-- Scan-state invariant: recorded pairs are in range, and the recorded
identical pair really is identical. -/
def scanInv (a b : List (List Char)) (st : FancyState) : Prop :=
  (∀ i j, st.eqPair = some (i, j) →
    i < a.length ∧ j < b.length ∧ a.getD i [] = b.getD j []) ∧
  (∀ i j, st.bestPair = some (i, j) → i < a.length ∧ j < b.length)

theorem fancyCell_inv (a b : List (List Char)) (i j : Nat) (st : FancyState)
    (hi : i < a.length) (hj : j < b.length) (h : scanInv a b st) :
    scanInv a b (fancyCell a b i j st) := by
  unfold fancyCell
  by_cases heq : a.getD i [] = b.getD j []
  · rw [if_pos heq]
    cases hep : st.eqPair with
    | none =>
      refine ⟨?_, fun i' j' h' => h.2 i' j' h'⟩
      intro i' j' h'
      have h3 : (i, j) = (i', j') := Option.some.inj h'
      cases h3
      exact ⟨hi, hj, heq⟩
    | some p => exact h
  · rw [if_neg heq]
    by_cases hlt : st.bestRatio < ratioQ (a.getD i []) (b.getD j [])
    · rw [if_pos hlt]
      refine ⟨fun i' j' h' => h.1 i' j' h', ?_⟩
      intro i' j' h'
      have h3 : (i, j) = (i', j') := Option.some.inj h'
      cases h3
      exact ⟨hi, hj⟩
    · rw [if_neg hlt]
      exact h

theorem fancyRowScan_inv (a b : List (List Char)) (j : Nat) (hj : j < b.length) :
    ∀ (imax : Nat), imax ≤ a.length → ∀ st, scanInv a b st →
      scanInv a b (fancyRowScan a b j imax st) := by
  intro imax
  induction imax with
  | zero => intro _ st h; simpa [fancyRowScan] using h
  | succ i ih =>
    intro hle st h
    simp only [fancyRowScan]
    exact fancyCell_inv a b i j _ (by omega) hj (ih (by omega) st h)

theorem fancyColsScan_inv (a b : List (List Char)) :
    ∀ (jmax : Nat), jmax ≤ b.length → ∀ st, scanInv a b st →
      scanInv a b (fancyColsScan a b jmax st) := by
  intro jmax
  induction jmax with
  | zero => intro _ st h; simpa [fancyColsScan] using h
  | succ j ih =>
    intro hle st h
    simp only [fancyColsScan]
    exact fancyRowScan_inv a b j (by omega) a.length (le_refl _) _ (ih (by omega) st h)

theorem fancyScan_inv (a b : List (List Char)) : scanInv a b (fancyScan a b) := by
  unfold fancyScan
  exact fancyColsScan_inv a b b.length (le_refl _) _ ⟨by simp, by simp⟩

/-- Splitting a list at an in-range index. -/
theorem take_getD_drop (l : List (List Char)) (i : Nat) (h : i < l.length) :
    l.take i ++ [l.getD i []] ++ l.drop (i + 1) = l := by
  have h1 : l.drop i = l[i] :: l.drop (i + 1) := List.drop_eq_getElem_cons h
  have h2 : l.getD i [] = l[i] := List.getD_eq_getElem l [] h
  rw [h2, List.append_assoc, List.singleton_append, ← h1, List.take_append_drop]

theorem origOf_fancyReplaceF :
    ∀ (fuel : Nat) (a b : List (List Char)),
      origOf (fancyReplaceF fuel a b) = a ∧ corrOf (fancyReplaceF fuel a b) = b := by
  intro fuel
  induction fuel with
  | zero =>
    intro a b
    exact ⟨origOf_plainReplace a b, corrOf_plainReplace a b⟩
  | succ fuel ih =>
    intro a b
    simp only [fancyReplaceF]
    have hinv := fancyScan_inv a b
    set st := fancyScan a b with hst
    by_cases hcut : st.bestRatio < mkRat 3 4
    · simp only [if_pos hcut]
      cases hep : st.eqPair with
      | none => exact ⟨origOf_plainReplace a b, corrOf_plainReplace a b⟩
      | some p =>
        obtain ⟨ei, ej⟩ := p
        obtain ⟨hei, hej, heqv⟩ := hinv.1 ei ej hep
        simp only
        constructor
        · rw [origOf_append, origOf_append]
          have hbefore : origOf
              (if a.take ei = [] then (b.take ej).map DOp.ins
               else if b.take ej = [] then (a.take ei).map DOp.del
               else fancyReplaceF fuel (a.take ei) (b.take ej)) = a.take ei := by
            by_cases h1 : a.take ei = []
            · rw [if_pos h1, origOf_map_ins, h1]
            · rw [if_neg h1]
              by_cases h2 : b.take ej = []
              · rw [if_pos h2, origOf_map_del]
              · rw [if_neg h2]; exact (ih _ _).1
          have hafter : origOf
              (if a.drop (ei + 1) = [] then (b.drop (ej + 1)).map DOp.ins
               else if b.drop (ej + 1) = [] then (a.drop (ei + 1)).map DOp.del
               else fancyReplaceF fuel (a.drop (ei + 1)) (b.drop (ej + 1))) =
                a.drop (ei + 1) := by
            by_cases h1 : a.drop (ei + 1) = []
            · rw [if_pos h1, origOf_map_ins, h1]
            · rw [if_neg h1]
              by_cases h2 : b.drop (ej + 1) = []
              · rw [if_pos h2, origOf_map_del]
              · rw [if_neg h2]; exact (ih _ _).1
          rw [hbefore, hafter]
          simp only [origOf]
          exact take_getD_drop a ei hei
        · rw [corrOf_append, corrOf_append]
          have hbefore : corrOf
              (if a.take ei = [] then (b.take ej).map DOp.ins
               else if b.take ej = [] then (a.take ei).map DOp.del
               else fancyReplaceF fuel (a.take ei) (b.take ej)) = b.take ej := by
            by_cases h1 : a.take ei = []
            · rw [if_pos h1, corrOf_map_ins]
            · rw [if_neg h1]
              by_cases h2 : b.take ej = []
              · rw [if_pos h2, corrOf_map_del, h2]
              · rw [if_neg h2]; exact (ih _ _).2
          have hafter : corrOf
              (if a.drop (ei + 1) = [] then (b.drop (ej + 1)).map DOp.ins
               else if b.drop (ej + 1) = [] then (a.drop (ei + 1)).map DOp.del
               else fancyReplaceF fuel (a.drop (ei + 1)) (b.drop (ej + 1))) =
                b.drop (ej + 1) := by
            by_cases h1 : a.drop (ei + 1) = []
            · rw [if_pos h1, corrOf_map_ins]
            · rw [if_neg h1]
              by_cases h2 : b.drop (ej + 1) = []
              · rw [if_pos h2, corrOf_map_del, h2]
              · rw [if_neg h2]; exact (ih _ _).2
          rw [hbefore, hafter]
          simp only [corrOf, heqv]
          exact take_getD_drop b ej hej
    · simp only [if_neg hcut]
      cases hbp : st.bestPair with
      | none => exact ⟨origOf_plainReplace a b, corrOf_plainReplace a b⟩
      | some p =>
        obtain ⟨bi, bj⟩ := p
        obtain ⟨hbi, hbj⟩ := hinv.2 bi bj hbp
        simp only
        constructor
        · rw [origOf_append, origOf_append]
          have hbefore : origOf
              (if a.take bi = [] then (b.take bj).map DOp.ins
               else if b.take bj = [] then (a.take bi).map DOp.del
               else fancyReplaceF fuel (a.take bi) (b.take bj)) = a.take bi := by
            by_cases h1 : a.take bi = []
            · rw [if_pos h1, origOf_map_ins, h1]
            · rw [if_neg h1]
              by_cases h2 : b.take bj = []
              · rw [if_pos h2, origOf_map_del]
              · rw [if_neg h2]; exact (ih _ _).1
          have hafter : origOf
              (if a.drop (bi + 1) = [] then (b.drop (bj + 1)).map DOp.ins
               else if b.drop (bj + 1) = [] then (a.drop (bi + 1)).map DOp.del
               else fancyReplaceF fuel (a.drop (bi + 1)) (b.drop (bj + 1))) =
                a.drop (bi + 1) := by
            by_cases h1 : a.drop (bi + 1) = []
            · rw [if_pos h1, origOf_map_ins, h1]
            · rw [if_neg h1]
              by_cases h2 : b.drop (bj + 1) = []
              · rw [if_pos h2, origOf_map_del]
              · rw [if_neg h2]; exact (ih _ _).1
          rw [hbefore, hafter]
          simp only [origOf]
          exact take_getD_drop a bi hbi
        · rw [corrOf_append, corrOf_append]
          have hbefore : corrOf
              (if a.take bi = [] then (b.take bj).map DOp.ins
               else if b.take bj = [] then (a.take bi).map DOp.del
               else fancyReplaceF fuel (a.take bi) (b.take bj)) = b.take bj := by
            by_cases h1 : a.take bi = []
            · rw [if_pos h1, corrOf_map_ins]
            · rw [if_neg h1]
              by_cases h2 : b.take bj = []
              · rw [if_pos h2, corrOf_map_del, h2]
              · rw [if_neg h2]; exact (ih _ _).2
          have hafter : corrOf
              (if a.drop (bi + 1) = [] then (b.drop (bj + 1)).map DOp.ins
               else if b.drop (bj + 1) = [] then (a.drop (bi + 1)).map DOp.del
               else fancyReplaceF fuel (a.drop (bi + 1)) (b.drop (bj + 1))) =
                b.drop (bj + 1) := by
            by_cases h1 : a.drop (bi + 1) = []
            · rw [if_pos h1, corrOf_map_ins]
            · rw [if_neg h1]
              by_cases h2 : b.drop (bj + 1) = []
              · rw [if_pos h2, corrOf_map_del, h2]
              · rw [if_neg h2]; exact (ih _ _).2
          rw [hbefore, hafter]
          simp only [corrOf]
          exact take_getD_drop b bj hbj

theorem origOf_regionOps (a b : List (List Char)) :
    origOf (regionOps a b) = a ∧ corrOf (regionOps a b) = b := by
  match a, b with
  | [], [] => exact ⟨rfl, rfl⟩
  | [], v :: vs =>
    exact ⟨origOf_map_ins _, corrOf_map_ins _⟩
  | w :: ws, [] =>
    exact ⟨origOf_map_del _, corrOf_map_del _⟩
  | w :: ws, v :: vs =>
    exact origOf_fancyReplaceF _ _ _

theorem origOf_diffOpsF (pop : List Char → Bool) :
    ∀ (fuel : Nat) (a b : List (List Char)),
      origOf (diffOpsF pop fuel a b) = a ∧ corrOf (diffOpsF pop fuel a b) = b := by
  intro fuel
  induction fuel with
  | zero =>
    intro a b
    simp [diffOpsF, origOf_append, corrOf_append, origOf_map_del, origOf_map_ins,
      corrOf_map_del, corrOf_map_ins]
  | succ fuel ih =>
    intro a b
    rcases hbb : bestBlockExt pop a b with ⟨i, j, k⟩
    have hok := bestBlockExt_ok pop a b
    rw [hbb] at hok
    have hseg : (a.drop i).take k = (b.drop j).take k := hok.1
    simp only [diffOpsF, hbb]
    by_cases hk : k = 0
    · simp only [if_pos hk]
      exact origOf_regionOps a b
    · simp only [if_neg hk]
      constructor
      · rw [origOf_append, origOf_append, (ih _ _).1, (ih _ _).1, origOf_map_same]
        calc a.take i ++ (a.drop i).take k ++ a.drop (i + k)
            = a.take i ++ ((a.drop i).take k ++ (a.drop i).drop k) := by
              rw [List.drop_drop]
              simp [List.append_assoc]
          _ = a := by rw [List.take_append_drop, List.take_append_drop]
      · rw [corrOf_append, corrOf_append, (ih _ _).2, (ih _ _).2, corrOf_map_same, hseg]
        calc b.take j ++ (b.drop j).take k ++ b.drop (j + k)
            = b.take j ++ ((b.drop j).take k ++ (b.drop j).drop k) := by
              rw [List.drop_drop]
              simp [List.append_assoc]
          _ = b := by rw [List.take_append_drop, List.take_append_drop]

/-! ## The buffering/draining loop of `identify_corrections` -/

/-- A context window around position `idx` of the word list `ws`:
`" ".join(ws[max(0, idx - k) : min(len(ws), idx + 1 + k)])`. -/
def winCtx (ws : List (List Char)) (idx k : Nat) : List Char :=
  joinSpace (pySlice ws (idx - k) (min ws.length (idx + 1 + k)))

/-- One iteration of the inner `while original_buffer or corrected_buffer`
drain loop: `orig`/`corr` are the popped heads (`''` when the buffer is empty)
and `restOLen`/`restCLen` the buffer lengths after the pops.  Emits at most one
`Correction`. -/
def drainStep (ow cw : List (List Char)) (k owi cwi : Nat)
    (orig corr : List Char) (restOLen restCLen : Nat) : List Correction :=
  if orig ≠ corr ∨ (orig = [] ∧ corr ≠ []) ∨ (orig ≠ [] ∧ corr = []) then
    let oi := owi - restOLen - 1
    let ci := cwi - restCLen - 1
    let winO := winCtx ow oi k
    let winC := winCtx cw ci k
    let octx := if orig ≠ [] then winO else winC
    let cctx := if corr ≠ [] then winC else winO
    if pyStrip orig ≠ pyStrip corr ∧ (pyStrip orig ≠ [] ∨ pyStrip corr ≠ []) ∧
        pyStrip octx ≠ pyStrip cctx then
      [⟨pyStrip orig, pyStrip corr, octx, cctx⟩]
    else []
  else []

/-- Drain of a leftover corrected-side buffer once the original-side buffer is
exhausted (`orig = ''` pure insertions). -/
def drainTail (ow cw : List (List Char)) (k owi cwi : Nat) :
    List (List Char) → List Correction
  | [] => []
  | c :: cs =>
    drainStep ow cw k owi cwi [] c 0 cs.length ++ drainTail ow cw k owi cwi cs

/-- The full drain of both buffers (pairing by position, the shorter buffer
padding with `''`); `owi`/`cwi` are the word indices at drain time. -/
def drainGroup (ow cw : List (List Char)) (k owi cwi : Nat) :
    List (List Char) → List (List Char) → List Correction
  | [], cbuf => drainTail ow cw k owi cwi cbuf
  | o :: os, [] =>
    drainStep ow cw k owi cwi o [] os.length 0 ++ drainGroup ow cw k owi cwi os []
  | o :: os, c :: cs =>
    drainStep ow cw k owi cwi o c os.length cs.length ++
      drainGroup ow cw k owi cwi os cs

/-- The `for item in diff` loop of `identify_corrections`: `'-'`/`'+'` lines
are buffered (advancing the respective word index), a `'  '` line drains the
buffers and advances both indices, and a final drain runs after the loop. -/
def procOps (ow cw : List (List Char)) (k : Nat) :
    List (DOp (List Char)) → List (List Char) → List (List Char) → Nat → Nat →
      List Correction
  | [], obuf, cbuf, owi, cwi => drainGroup ow cw k owi cwi obuf cbuf
  | DOp.del w :: rest, obuf, cbuf, owi, cwi =>
    procOps ow cw k rest (obuf ++ [w]) cbuf (owi + 1) cwi
  | DOp.ins w :: rest, obuf, cbuf, owi, cwi =>
    procOps ow cw k rest obuf (cbuf ++ [w]) owi (cwi + 1)
  | DOp.same _ :: rest, obuf, cbuf, owi, cwi =>
    drainGroup ow cw k owi cwi obuf cbuf ++ procOps ow cw k rest [] [] (owi + 1) (cwi + 1)

/-- The final "meaningful for website display" filter of
`identify_corrections`. -/
def keepFinal (c : Correction) : Bool :=
  decide (c.originalWord ≠ c.correctedWord) &&
  (decide (c.originalWord ≠ []) || decide (c.correctedWord ≠ [])) &&
  decide (c.originalContext ≠ c.correctedContext) &&
  decide (pyStrip c.originalWord ≠ []) &&
  decide (pyStrip c.correctedWord ≠ [])

/-- `GrammarCorrectionProcessor.identify_corrections(original_text,
corrected_text, context_words)`. -/
def identifyCorrections (origText corrText : List Char) (k : Nat) : List Correction :=
  if pyStrip origText = pyStrip corrText then []
  else
    let ow := wordsOf origText
    let cw := wordsOf corrText
    (procOps ow cw k (differCompare ow cw) [] [] 0 0).filter keepFinal

/-! ## The differ on identical word sequences -/

theorem diffOpsF_nil (pop : List Char → Bool) :
    ∀ fuel, diffOpsF pop fuel [] [] = [] := by
  intro fuel
  cases fuel <;> rfl

theorem diffOpsF_self (pop : List Char → Bool) :
    ∀ (fuel : Nat) (a : List (List Char)),
      diffOpsF pop (fuel + 1) a a = a.map DOp.same := by
  intro fuel a
  have hself := bestBlockExt_self pop a
  simp only [diffOpsF, hself]
  by_cases hlen : a.length = 0
  · rw [if_pos hlen]
    have ha : a = [] := List.length_eq_zero.mp hlen
    subst ha
    rfl
  · rw [if_neg hlen]
    rw [List.take_zero, diffOpsF_nil, List.drop_zero, Nat.zero_add, List.drop_length,
      diffOpsF_nil, List.take_length]
    simp

/-- `Differ.compare` on an identical pair of sequences is all `'  '` lines:
either the junk-free scan finds a block and the extension loops grow it over
the whole sequence, or (all elements popular) the empty block at `(0, 0)` is
grown over the whole sequence by the forward extension. -/
theorem differCompare_self (a : List (List Char)) :
    differCompare a a = a.map DOp.same := by
  unfold differCompare
  have : a.length + a.length + 1 = (a.length + a.length) + 1 := rfl
  rw [this, diffOpsF_self]

theorem procOps_same (ow cw : List (List Char)) (k : Nat) :
    ∀ (ws : List (List Char)) (owi cwi : Nat),
      procOps ow cw k (ws.map DOp.same) [] [] owi cwi = [] := by
  intro ws
  induction ws with
  | nil => intro owi cwi; rfl
  | cons w ws ih =>
    intro owi cwi
    simp only [List.map_cons, procOps]
    rw [ih]
    rfl

/-! ## Claim C5: the alignment versus a reference LCS diff -/

/-- Modelled from the spec: length of a longest common subsequence, the measure
a "classic text-diff algorithm" maximises (an LCS-equivalent diff emits exactly
this many match ops). -/
def lcsLenF : Nat → List α → List α → Nat
  | 0, _, _ => 0
  | fuel + 1, xs, ys =>
    match xs, ys with
    | [], _ => 0
    | _, [] => 0
    | x :: xs', y :: ys' =>
      if x = y then lcsLenF fuel xs' ys' + 1
      else max (lcsLenF fuel xs' (y :: ys')) (lcsLenF fuel (x :: xs') ys')

/-- Modelled from the spec: LCS length (with enough fuel). -/
def lcsLen (xs ys : List α) : Nat := lcsLenF (xs.length + ys.length + 1) xs ys

/-- Modelled from the spec: the reference longest-common-subsequence diff the
claim describes — one op per consumed word in left-to-right document order,
ties in the LCS broken by preferring the earliest-possible match. -/
def lcsDiffF : Nat → List α → List α → List (DOp α)
  | 0, xs, ys => xs.map DOp.del ++ ys.map DOp.ins
  | fuel + 1, xs, ys =>
    match xs, ys with
    | [], ys' => ys'.map DOp.ins
    | xs', [] => xs'.map DOp.del
    | x :: xs', y :: ys' =>
      if x = y then DOp.same x :: lcsDiffF fuel xs' ys'
      else if lcsLen (x :: xs') ys' ≤ lcsLen xs' (y :: ys') then
        DOp.del x :: lcsDiffF fuel xs' (y :: ys')
      else DOp.ins y :: lcsDiffF fuel (x :: xs') ys'

/-- Modelled from the spec: the reference LCS diff (with enough fuel). -/
def lcsDiff (xs ys : List α) : List (DOp α) :=
  lcsDiffF (xs.length + ys.length + 1) xs ys

/-- The original word sequence of the C5 counterexample. -/
def exC5A : List (List Char) := wordsOf (sl "a b c b d a b")

/-- The corrected word sequence of the C5 counterexample. -/
def exC5B : List (List Char) := wordsOf (sl "b d c a b a")

set_option maxRecDepth 4096 in
/-- C5 counterexample: on the word sequences of `"a b c b d a b"` versus
`"b d c a b a"`, the `difflib.Differ` alignment used by `identify_corrections`
is not the reference LCS diff; indeed it emits only 3 match ops while the LCS
has length 4, so it cannot equal any longest-common-subsequence diff,
whatever the tie-breaking. -/
theorem claim_C5_counterexample :
    differCompare exC5A exC5B ≠ lcsDiff exC5A exC5B ∧
      countSame (differCompare exC5A exC5B) < lcsLen exC5A exC5B := by
  decide

/-- C5 amended: the alignment underlying `identify_corrections` is
`difflib.Differ`'s Ratcliff–Obershelp-style diff, not an LCS diff.  It is a
deterministic function of the two word sequences that emits one op per
consumed word in left-to-right document order: the `'  '`/`'- '` payloads
concatenate back to the original word sequence and the `'  '`/`'+ '` payloads
to the corrected one — but its match set can be strictly smaller than a
longest common subsequence (see the counterexample). -/
theorem claim_C5_amended (a b : List (List Char)) :
    origOf (differCompare a b) = a ∧ corrOf (differCompare a b) = b :=
  origOf_diffOpsF (popularIn b) (a.length + b.length + 1) a b

/-! ## Claim C10: every returned field is lower-case -/

theorem toLower_toLower (c : Char) : c.toLower.toLower = c.toLower := by
  have hdef : ∀ d : Char,
      d.toLower = if d.toNat ≥ 65 ∧ d.toNat ≤ 90 then Char.ofNat (d.toNat + 32) else d :=
    fun _ => rfl
  by_cases h : c.toNat ≥ 65 ∧ c.toNat ≤ 90
  · obtain ⟨n, hn⟩ : ∃ n, c.toNat = n := ⟨c.toNat, rfl⟩
    have h1 : c.toLower = Char.ofNat (n + 32) := by
      rw [hdef c, if_pos h, hn]
    rw [h1]
    have hlb : 65 ≤ n := hn ▸ h.1
    have hub : n ≤ 90 := hn ▸ h.2
    interval_cases n <;> decide
  · have h1 : c.toLower = c := by
      rw [hdef c, if_neg h]
    rw [h1, h1]

/-- A string is (Python-)lower-cased already. -/
def isLow (s : List Char) : Prop := ∀ c ∈ s, c.toLower = c

theorem lowerStr_eq_self_iff (s : List Char) : lowerStr s = s ↔ isLow s := by
  unfold lowerStr isLow
  induction s with
  | nil => simp
  | cons d ds ih =>
    simp only [List.map_cons, List.cons.injEq, List.mem_cons]
    constructor
    · rintro ⟨h1, h2⟩ c hc
      rcases hc with rfl | hc
      · exact h1
      · exact ih.mp h2 c hc
    · intro h
      exact ⟨h d (Or.inl rfl), ih.mpr fun c hc => h c (Or.inr hc)⟩

theorem isLow_lowerStr (s : List Char) : isLow (lowerStr s) := by
  intro c hc
  obtain ⟨d, _, hd⟩ := List.mem_map.mp hc
  rw [← hd]
  exact toLower_toLower d

theorem pyStrip_subset (s : List Char) : ∀ c ∈ pyStrip s, c ∈ s := by
  intro c hc
  unfold pyStrip at hc
  rw [List.mem_reverse] at hc
  have h1 := (List.dropWhile_sublist (l := (s.dropWhile isPySpace).reverse)
    (p := isPySpace)).mem hc
  rw [List.mem_reverse] at h1
  exact (List.dropWhile_sublist (l := s) (p := isPySpace)).mem h1

theorem isLow_pyStrip (s : List Char) (h : isLow s) : isLow (pyStrip s) :=
  fun c hc => h c (pyStrip_subset s c hc)

theorem joinSpace_chars :
    ∀ (l : List (List Char)) (c : Char), c ∈ joinSpace l → c = ' ' ∨ ∃ w ∈ l, c ∈ w := by
  intro l
  induction l with
  | nil => intro c hc; cases hc
  | cons w ws ih =>
    intro c hc
    cases ws with
    | nil =>
      right
      exact ⟨w, by simp, hc⟩
    | cons v vs =>
      simp only [joinSpace, List.mem_append, List.mem_cons] at hc
      rcases hc with hc | hc | hc
      · exact Or.inr ⟨w, by simp, hc⟩
      · exact Or.inl hc
      · rcases ih c hc with h' | ⟨u, hu, hcu⟩
        · exact Or.inl h'
        · exact Or.inr ⟨u, by simp [hu], hcu⟩

theorem pySlice_subset (l : List (List Char)) (s e : Nat) :
    ∀ w ∈ pySlice l s e, w ∈ l := by
  intro w hw
  unfold pySlice at hw
  exact List.mem_of_mem_take (List.mem_of_mem_drop hw)

theorem isLow_winCtx (ws : List (List Char)) (idx k : Nat)
    (h : ∀ w ∈ ws, isLow w) : isLow (winCtx ws idx k) := by
  intro c hc
  unfold winCtx at hc
  rcases joinSpace_chars _ c hc with h' | ⟨w, hw, hcw⟩
  · subst h'
    decide
  · exact h w (pySlice_subset _ _ _ w hw) c hcw

/-- All four fields of a `Correction` are lower-cased. -/
def isLowCorr (x : Correction) : Prop :=
  isLow x.originalWord ∧ isLow x.correctedWord ∧
    isLow x.originalContext ∧ isLow x.correctedContext

theorem drainStep_low (ow cw : List (List Char)) (k owi cwi : Nat)
    (orig corr : List Char) (rO rC : Nat)
    (how : ∀ w ∈ ow, isLow w) (hcw : ∀ w ∈ cw, isLow w)
    (ho : isLow orig) (hc : isLow corr) :
    ∀ x ∈ drainStep ow cw k owi cwi orig corr rO rC, isLowCorr x := by
  intro x hx
  unfold drainStep at hx
  split at hx
  · split at hx <;> split at hx <;> (try dsimp only at hx) <;> split at hx
    all_goals
      first
        | (rw [List.mem_singleton] at hx
           subst hx
           refine ⟨isLow_pyStrip _ ho, isLow_pyStrip _ hc, ?_, ?_⟩ <;>
             first
               | exact isLow_winCtx ow _ k how
               | exact isLow_winCtx cw _ k hcw)
        | cases hx
  · cases hx

theorem drainTail_low (ow cw : List (List Char)) (k owi cwi : Nat)
    (how : ∀ w ∈ ow, isLow w) (hcw : ∀ w ∈ cw, isLow w) :
    ∀ (cbuf : List (List Char)), (∀ w ∈ cbuf, isLow w) →
      ∀ x ∈ drainTail ow cw k owi cwi cbuf, isLowCorr x := by
  intro cbuf
  induction cbuf with
  | nil => intro _ x hx; cases hx
  | cons c cs ih =>
    intro hbuf x hx
    simp only [drainTail, List.mem_append] at hx
    rcases hx with hx | hx
    · exact drainStep_low ow cw k owi cwi [] c 0 cs.length how hcw (by intro d hd; cases hd)
        (hbuf c (by simp)) x hx
    · exact ih (fun w hw => hbuf w (by simp [hw])) x hx

theorem drainGroup_low (ow cw : List (List Char)) (k owi cwi : Nat)
    (how : ∀ w ∈ ow, isLow w) (hcw : ∀ w ∈ cw, isLow w) :
    ∀ (obuf cbuf : List (List Char)),
      (∀ w ∈ obuf, isLow w) → (∀ w ∈ cbuf, isLow w) →
      ∀ x ∈ drainGroup ow cw k owi cwi obuf cbuf, isLowCorr x := by
  intro obuf
  induction obuf with
  | nil =>
    intro cbuf _ hcbuf x hx
    exact drainTail_low ow cw k owi cwi how hcw cbuf hcbuf x hx
  | cons o os ih =>
    intro cbuf hobuf hcbuf x hx
    cases cbuf with
    | nil =>
      simp only [drainGroup, List.mem_append] at hx
      rcases hx with hx | hx
      · exact drainStep_low ow cw k owi cwi o [] os.length 0 how hcw
          (hobuf o (by simp)) (by intro d hd; cases hd) x hx
      · exact ih [] (fun w hw => hobuf w (by simp [hw])) (by intro w hw; cases hw) x hx
    | cons c cs =>
      simp only [drainGroup, List.mem_append] at hx
      rcases hx with hx | hx
      · exact drainStep_low ow cw k owi cwi o c os.length cs.length how hcw
          (hobuf o (by simp)) (hcbuf c (by simp)) x hx
      · exact ih cs (fun w hw => hobuf w (by simp [hw]))
          (fun w hw => hcbuf w (by simp [hw])) x hx

/-- The word carried by a diff line. -/
def opWord : DOp α → α
  | DOp.same w => w
  | DOp.del w => w
  | DOp.ins w => w

theorem procOps_low (ow cw : List (List Char)) (k : Nat)
    (how : ∀ w ∈ ow, isLow w) (hcw : ∀ w ∈ cw, isLow w) :
    ∀ (ops : List (DOp (List Char))) (obuf cbuf : List (List Char)) (owi cwi : Nat),
      (∀ op ∈ ops, isLow (opWord op)) →
      (∀ w ∈ obuf, isLow w) → (∀ w ∈ cbuf, isLow w) →
      ∀ x ∈ procOps ow cw k ops obuf cbuf owi cwi, isLowCorr x := by
  intro ops
  induction ops with
  | nil =>
    intro obuf cbuf owi cwi _ hobuf hcbuf x hx
    exact drainGroup_low ow cw k owi cwi how hcw obuf cbuf hobuf hcbuf x hx
  | cons op rest ih =>
    intro obuf cbuf owi cwi hops hobuf hcbuf x hx
    have hop : isLow (opWord op) := hops op (by simp)
    have hrest : ∀ op' ∈ rest, isLow (opWord op') := fun op' h' => hops op' (by simp [h'])
    cases op with
    | del w =>
      refine ih (obuf ++ [w]) cbuf (owi + 1) cwi hrest ?_ hcbuf x hx
      intro u hu
      rcases List.mem_append.mp hu with hu | hu
      · exact hobuf u hu
      · rw [List.mem_singleton] at hu
        exact hu ▸ hop
    | ins w =>
      refine ih obuf (cbuf ++ [w]) owi (cwi + 1) hrest hobuf ?_ x hx
      intro u hu
      rcases List.mem_append.mp hu with hu | hu
      · exact hcbuf u hu
      · rw [List.mem_singleton] at hu
        exact hu ▸ hop
    | same w =>
      simp only [procOps, List.mem_append] at hx
      rcases hx with hx | hx
      · exact drainGroup_low ow cw k owi cwi how hcw obuf cbuf hobuf hcbuf x hx
      · exact ih [] [] (owi + 1) (cwi + 1) hrest (by intro u hu; cases hu)
          (by intro u hu; cases hu) x hx

theorem opWord_mem_proj (ops : List (DOp α)) :
    ∀ op ∈ ops, opWord op ∈ origOf ops ∨ opWord op ∈ corrOf ops := by
  induction ops with
  | nil => intro op h; cases h
  | cons op' rest ih =>
    intro op h
    rcases List.mem_cons.mp h with h | h
    · subst h
      cases op <;> simp [opWord, origOf, corrOf]
    · rcases ih op h with h' | h' <;> cases op' <;>
        simp [origOf, corrOf, h'] <;> tauto

theorem wordsOf_low (t : List Char) : ∀ w ∈ wordsOf t, isLow w := by
  intro w hw
  obtain ⟨r, _, hr⟩ := List.mem_map.mp hw
  exact hr ▸ isLow_lowerStr r

/-- C10: every string field of every `Correction` returned by
`identify_corrections` is entirely lower-case (the original casing is not
preserved), and if the two texts have the same lower-cased word-token
sequences then `identify_corrections` returns the empty list. -/
theorem claim_C10 (t1 t2 : List Char) (k : Nat) :
    (∀ c ∈ identifyCorrections t1 t2 k,
      lowerStr c.originalWord = c.originalWord ∧
      lowerStr c.correctedWord = c.correctedWord ∧
      lowerStr c.originalContext = c.originalContext ∧
      lowerStr c.correctedContext = c.correctedContext) ∧
    (wordsOf t1 = wordsOf t2 → identifyCorrections t1 t2 k = []) := by
  constructor
  · intro c hc
    unfold identifyCorrections at hc
    by_cases h : pyStrip t1 = pyStrip t2
    · rw [if_pos h] at hc
      cases hc
    · rw [if_neg h] at hc
      have hc' := List.mem_of_mem_filter hc
      have hops : ∀ op ∈ differCompare (wordsOf t1) (wordsOf t2), isLow (opWord op) := by
        intro op hop
        have hproj := origOf_diffOpsF (popularIn (wordsOf t2))
          ((wordsOf t1).length + (wordsOf t2).length + 1) (wordsOf t1) (wordsOf t2)
        rcases opWord_mem_proj _ op hop with h' | h'
        · rw [show origOf (differCompare (wordsOf t1) (wordsOf t2)) = wordsOf t1 from
            hproj.1] at h'
          exact wordsOf_low t1 _ h'
        · rw [show corrOf (differCompare (wordsOf t1) (wordsOf t2)) = wordsOf t2 from
            hproj.2] at h'
          exact wordsOf_low t2 _ h'
      have hlow := procOps_low (wordsOf t1) (wordsOf t2) k (wordsOf_low t1) (wordsOf_low t2)
        (differCompare (wordsOf t1) (wordsOf t2)) [] [] 0 0 hops
        (by intro u hu; cases hu) (by intro u hu; cases hu) c hc'
      exact ⟨(lowerStr_eq_self_iff _).mpr hlow.1, (lowerStr_eq_self_iff _).mpr hlow.2.1,
        (lowerStr_eq_self_iff _).mpr hlow.2.2.1, (lowerStr_eq_self_iff _).mpr hlow.2.2.2⟩
  · intro hwords
    unfold identifyCorrections
    by_cases h : pyStrip t1 = pyStrip t2
    · rw [if_pos h]
    · rw [if_neg h]
      show (procOps (wordsOf t1) (wordsOf t2) k
        (differCompare (wordsOf t1) (wordsOf t2)) [] [] 0 0).filter keepFinal = []
      rw [hwords, differCompare_self, procOps_same]
      rfl

theorem claim_C10_witness :
    ((⟨sl "are", sl "is", sl "this are a test", sl "this is a test"⟩ : Correction) ∈
        identifyCorrections (sl "This are a test.") (sl "This is a test.") 2 ∧
      lowerStr (sl "are") = sl "are" ∧ lowerStr (sl "this is a test") = sl "this is a test") ∧
      (wordsOf (sl "Hello, WORLD!") = wordsOf (sl "hello world") ∧
        identifyCorrections (sl "Hello, WORLD!") (sl "hello world") 3 = []) := by
  have h1 := (claim_C10 (sl "This are a test.") (sl "This is a test.") 2).1
    ⟨sl "are", sl "is", sl "this are a test", sl "this is a test"⟩ (by decide)
  exact ⟨⟨by decide, h1.1, h1.2.2.2⟩, by decide,
    (claim_C10 (sl "Hello, WORLD!") (sl "hello world") 3).2 (by decide)⟩

/-! ## Claim C4: context windows are bounded and in range -/

/-- `ctx` is a clamped window over the word list `ws`: the join of a slice of
at most `2k + 1` words whose indices lie inside `[0, ws.length)`. -/
def ctxShape (ws : List (List Char)) (k : Nat) (ctx : List Char) : Prop :=
  ∃ s e, s ≤ e ∧ e ≤ ws.length ∧ e - s ≤ 2 * k + 1 ∧
    ctx = joinSpace (pySlice ws s e)

theorem pySlice_of_ge (l : List (List Char)) (s e : Nat) (h : e ≤ s) :
    pySlice l s e = [] := by
  unfold pySlice
  apply List.drop_eq_nil_of_le
  rw [List.length_take]
  omega

theorem winCtx_shape (ws : List (List Char)) (idx k : Nat) :
    ctxShape ws k (winCtx ws idx k) := by
  by_cases h : idx - k ≤ min ws.length (idx + 1 + k)
  · exact ⟨idx - k, min ws.length (idx + 1 + k), h, Nat.min_le_left _ _, by omega, rfl⟩
  · refine ⟨min ws.length (idx + 1 + k), min ws.length (idx + 1 + k), le_refl _,
      Nat.min_le_left _ _, by omega, ?_⟩
    unfold winCtx
    rw [pySlice_of_ge ws (idx - k) _ (by omega), pySlice_of_ge ws _ _ (le_refl _)]

/-- Context-window shape of one drained correction: whichever side has a
non-empty word draws its context from that side's word sequence, as a clamped
window. -/
theorem drainStep_shape (ow cw : List (List Char)) (k owi cwi : Nat)
    (orig corr : List Char) (rO rC : Nat) :
    ∀ x ∈ drainStep ow cw k owi cwi orig corr rO rC,
      (x.originalWord ≠ [] → ctxShape ow k x.originalContext) ∧
      (x.correctedWord ≠ [] → ctxShape cw k x.correctedContext) := by
  intro x hx
  unfold drainStep at hx
  split at hx
  · split at hx <;> split at hx <;> (try dsimp only at hx) <;> split at hx
    all_goals
      first
        | (rw [List.mem_singleton] at hx
           subst hx
           constructor <;> intro hne <;>
             first
               | exact winCtx_shape _ _ _
               | (exfalso
                  revert hne
                  simp_all [pyStrip]))
        | cases hx
  · cases hx

theorem drainTail_shape (ow cw : List (List Char)) (k owi cwi : Nat) :
    ∀ (cbuf : List (List Char)) (x : Correction),
      x ∈ drainTail ow cw k owi cwi cbuf →
      (x.originalWord ≠ [] → ctxShape ow k x.originalContext) ∧
      (x.correctedWord ≠ [] → ctxShape cw k x.correctedContext) := by
  intro cbuf
  induction cbuf with
  | nil => intro x hx; cases hx
  | cons c cs ih =>
    intro x hx
    simp only [drainTail, List.mem_append] at hx
    rcases hx with hx | hx
    · exact drainStep_shape ow cw k owi cwi [] c 0 cs.length x hx
    · exact ih x hx

theorem drainGroup_shape (ow cw : List (List Char)) (k : Nat) :
    ∀ (obuf cbuf : List (List Char)) (owi cwi : Nat) (x : Correction),
      x ∈ drainGroup ow cw k owi cwi obuf cbuf →
      (x.originalWord ≠ [] → ctxShape ow k x.originalContext) ∧
      (x.correctedWord ≠ [] → ctxShape cw k x.correctedContext) := by
  intro obuf
  induction obuf with
  | nil =>
    intro cbuf owi cwi x hx
    exact drainTail_shape ow cw k owi cwi cbuf x hx
  | cons o os ih =>
    intro cbuf owi cwi x hx
    cases cbuf with
    | nil =>
      simp only [drainGroup, List.mem_append] at hx
      rcases hx with hx | hx
      · exact drainStep_shape ow cw k owi cwi o [] os.length 0 x hx
      · exact ih [] owi cwi x hx
    | cons c cs =>
      simp only [drainGroup, List.mem_append] at hx
      rcases hx with hx | hx
      · exact drainStep_shape ow cw k owi cwi o c os.length cs.length x hx
      · exact ih cs owi cwi x hx

theorem procOps_shape (ow cw : List (List Char)) (k : Nat) :
    ∀ (ops : List (DOp (List Char))) (obuf cbuf : List (List Char)) (owi cwi : Nat)
      (x : Correction), x ∈ procOps ow cw k ops obuf cbuf owi cwi →
      (x.originalWord ≠ [] → ctxShape ow k x.originalContext) ∧
      (x.correctedWord ≠ [] → ctxShape cw k x.correctedContext) := by
  intro ops
  induction ops with
  | nil =>
    intro obuf cbuf owi cwi x hx
    exact drainGroup_shape ow cw k obuf cbuf owi cwi x hx
  | cons op rest ih =>
    intro obuf cbuf owi cwi x hx
    cases op with
    | del w => exact ih (obuf ++ [w]) cbuf (owi + 1) cwi x hx
    | ins w => exact ih obuf (cbuf ++ [w]) owi (cwi + 1) x hx
    | same w =>
      simp only [procOps, List.mem_append] at hx
      rcases hx with hx | hx
      · exact drainGroup_shape ow cw k obuf cbuf owi cwi x hx
      · exact ih [] [] (owi + 1) (cwi + 1) x hx

/-! ### Counting the space-separated words of a context -/

theorem spaceSplit_noSpace (w : List Char) (h : ∀ c ∈ w, c ≠ ' ') :
    spaceSplit w = [w] := by
  induction w with
  | nil => rfl
  | cons c cs ih =>
    have hc : (c == ' ') = false := by
      have := h c (by simp)
      simpa using this
    have hcs := ih fun d hd => h d (by simp [hd])
    simp only [spaceSplit, hcs, hc]

theorem spaceSplit_append_noSpace (w : List Char) (h : ∀ c ∈ w, c ≠ ' ') :
    ∀ (rest p : List Char) (ps : List (List Char)), spaceSplit rest = p :: ps →
      spaceSplit (w ++ rest) = (w ++ p) :: ps := by
  induction w with
  | nil => intro rest p ps hr; simpa using hr
  | cons c cs ih =>
    intro rest p ps hr
    have hc : (c == ' ') = false := by
      have := h c (by simp)
      simpa using this
    have hcs := ih (fun d hd => h d (by simp [hd])) rest p ps hr
    simp only [List.cons_append, spaceSplit, List.append_eq, hcs, hc]

theorem spaceSplit_joinSpace (l : List (List Char))
    (h : ∀ w ∈ l, w ≠ [] ∧ ∀ c ∈ w, c ≠ ' ') :
    spaceSplit (joinSpace l) = if l = [] then [[]] else l := by
  induction l with
  | nil => rfl
  | cons w ws ih =>
    cases ws with
    | nil =>
      simp only [joinSpace, if_neg (by simp : ¬(([w] : List (List Char)) = []))]
      exact spaceSplit_noSpace w (h w (by simp)).2
    | cons v vs =>
      have hws := ih fun u hu => h u (by simp [List.mem_cons] at hu ⊢; tauto)
      rw [if_neg (by simp)] at hws
      have hsp : spaceSplit (' ' :: joinSpace (v :: vs)) = [] :: (v :: vs) := by
        have : spaceSplit (' ' :: joinSpace (v :: vs)) = [] :: spaceSplit (joinSpace (v :: vs)) := by
          simp [spaceSplit]
        rw [this, hws]
      have := spaceSplit_append_noSpace w (h w (by simp)).2
        (' ' :: joinSpace (v :: vs)) [] (v :: vs) hsp
      simp only [joinSpace, this, List.append_nil]
      rw [if_neg (by simp)]

theorem wordRuns_nil : wordRuns [] = [] := rfl

theorem wordRuns_cons (c : Char) (cs : List Char) :
    wordRuns (c :: cs) =
      if isWordChar c then
        match cs, wordRuns cs with
        | d :: _, run :: runs => if isWordChar d then (c :: run) :: runs else [c] :: run :: runs
        | _, r => [c] :: r
      else wordRuns cs := rfl

theorem wordRuns_good :
    ∀ t : List Char, ∀ r ∈ wordRuns t, r ≠ [] ∧ ∀ ch ∈ r, isWordChar ch = true := by
  intro t
  induction t with
  | nil => intro r hr; cases hr
  | cons c cs ih =>
    intro r hr
    by_cases hw : isWordChar c
    · rw [wordRuns_cons, if_pos hw] at hr
      cases cs with
      | nil =>
        rw [wordRuns_nil] at hr
        dsimp only at hr
        rw [List.mem_singleton] at hr
        subst hr
        exact ⟨by simp, by intro ch hch; rw [List.mem_singleton] at hch; exact hch ▸ hw⟩
      | cons d ds =>
        cases hrr : wordRuns (d :: ds) with
        | nil =>
          rw [hrr] at hr
          dsimp only at hr
          rw [List.mem_singleton] at hr
          subst hr
          exact ⟨by simp, by intro ch hch; rw [List.mem_singleton] at hch; exact hch ▸ hw⟩
        | cons run runs =>
          rw [hrr] at hr
          dsimp only at hr
          by_cases hd : isWordChar d
          · rw [if_pos hd] at hr
            rcases List.mem_cons.mp hr with hr | hr
            · subst hr
              have hrun := ih run (by rw [hrr]; simp)
              refine ⟨by simp, ?_⟩
              intro ch hch
              rcases List.mem_cons.mp hch with h' | h'
              · exact h' ▸ hw
              · exact hrun.2 ch h'
            · exact ih r (by rw [hrr]; simp [hr])
          · rw [if_neg hd] at hr
            rcases List.mem_cons.mp hr with hr | hr
            · subst hr
              exact ⟨by simp, by intro ch hch; rw [List.mem_singleton] at hch; exact hch ▸ hw⟩
            · exact ih r (by rw [hrr]; exact hr)
    · rw [wordRuns_cons, if_neg hw] at hr
      exact ih r hr

theorem isWordChar_toLower (c : Char) (h : isWordChar c = true) :
    isWordChar c.toLower = true := by
  have hdef : c.toLower =
      if c.toNat ≥ 65 ∧ c.toNat ≤ 90 then Char.ofNat (c.toNat + 32) else c := rfl
  by_cases hr : c.toNat ≥ 65 ∧ c.toNat ≤ 90
  · rw [hdef, if_pos hr]
    obtain ⟨n, hn⟩ : ∃ n, c.toNat = n := ⟨c.toNat, rfl⟩
    rw [hn]
    have hlb : 65 ≤ n := hn ▸ hr.1
    have hub : n ≤ 90 := hn ▸ hr.2
    interval_cases n <;> decide
  · rw [hdef, if_neg hr]
    exact h

theorem wordsOf_good (t : List Char) :
    ∀ w ∈ wordsOf t, w ≠ [] ∧ ∀ c ∈ w, c ≠ ' ' := by
  intro w hw
  obtain ⟨r, hr, hrw⟩ := List.mem_map.mp hw
  obtain ⟨hne, hchars⟩ := wordRuns_good t r hr
  subst hrw
  constructor
  · simpa [lowerStr] using hne
  · intro c hc
    obtain ⟨d, hd, hdc⟩ := List.mem_map.mp hc
    have : isWordChar c = true := hdc ▸ isWordChar_toLower d (hchars d hd)
    intro hsp
    rw [hsp] at this
    exact absurd this (by decide)

theorem ctxShape_count (ws : List (List Char)) (k : Nat) (ctx : List Char)
    (hgood : ∀ w ∈ ws, w ≠ [] ∧ ∀ c ∈ w, c ≠ ' ')
    (h : ctxShape ws k ctx) : (spaceSplit ctx).length ≤ 2 * k + 1 := by
  obtain ⟨s, e, hse, hel, hcount, hctx⟩ := h
  have hgood' : ∀ w ∈ pySlice ws s e, w ≠ [] ∧ ∀ c ∈ w, c ≠ ' ' :=
    fun w hw => hgood w (pySlice_subset ws s e w hw)
  rw [hctx, spaceSplit_joinSpace _ hgood']
  by_cases hnil : pySlice ws s e = []
  · rw [if_pos hnil]
    simp
  · rw [if_neg hnil]
    have : (pySlice ws s e).length ≤ e - s := by
      unfold pySlice
      rw [List.length_drop, List.length_take]
      omega
    omega

/-- C4: every `Correction` returned by `identify_corrections` carries context
strings that are clamped windows over the respective word sequences — a join
of a slice of at most `2k + 1` words whose indices never leave
`[0, length)` — and hence contain at most `2k + 1` space-separated words. -/
theorem claim_C4 (t1 t2 : List Char) (k : Nat) (c : Correction)
    (hc : c ∈ identifyCorrections t1 t2 k) :
    (ctxShape (wordsOf t1) k c.originalContext ∧
      (spaceSplit c.originalContext).length ≤ 2 * k + 1) ∧
    (ctxShape (wordsOf t2) k c.correctedContext ∧
      (spaceSplit c.correctedContext).length ≤ 2 * k + 1) := by
  unfold identifyCorrections at hc
  by_cases h : pyStrip t1 = pyStrip t2
  · rw [if_pos h] at hc
    cases hc
  · rw [if_neg h] at hc
    have hmem := List.mem_of_mem_filter hc
    have hkeep := List.of_mem_filter hc
    simp only [keepFinal, Bool.and_eq_true, decide_eq_true_eq] at hkeep
    have hshape := procOps_shape (wordsOf t1) (wordsOf t2) k
      (differCompare (wordsOf t1) (wordsOf t2)) [] [] 0 0 c hmem
    have hone : c.originalWord ≠ [] := by
      intro hnil
      exact hkeep.1.2 (by rw [hnil]; rfl)
    have htwo : c.correctedWord ≠ [] := by
      intro hnil
      exact hkeep.2 (by rw [hnil]; rfl)
    have h1 := hshape.1 hone
    have h2 := hshape.2 htwo
    exact ⟨⟨h1, ctxShape_count _ k _ (wordsOf_good t1) h1⟩,
      ⟨h2, ctxShape_count _ k _ (wordsOf_good t2) h2⟩⟩

theorem claim_C4_witness :
    (⟨sl "are", sl "is", sl "this are a test", sl "this is a test"⟩ : Correction) ∈
        identifyCorrections (sl "This are a test.") (sl "This is a test.") 2 ∧
      (spaceSplit (sl "this are a test")).length ≤ 2 * 2 + 1 ∧
      ctxShape (wordsOf (sl "This are a test.")) 2 (sl "this are a test") :=
  ⟨by decide,
    (claim_C4 (sl "This are a test.") (sl "This is a test.") 2
      ⟨sl "are", sl "is", sl "this are a test", sl "this is a test"⟩ (by decide)).1.2,
    (claim_C4 (sl "This are a test.") (sl "This is a test.") 2
      ⟨sl "are", sl "is", sl "this are a test", sl "this is a test"⟩ (by decide)).1.1⟩

/-! ## Claim C1: the concrete "This are a test." scenario -/

/-- C1: `identify_corrections("This are a test.", "This is a test.", 2)`
returns exactly one `Correction`, namely
`{original_word: "are", corrected_word: "is",
original_context: "this are a test", corrected_context: "this is a test"}`. -/
theorem claim_C1 :
    identifyCorrections (sl "This are a test.") (sl "This is a test.") 2 =
      [⟨sl "are", sl "is", sl "this are a test", sl "this is a test"⟩] := by
  decide

/-! ## Claim C2: the identical-after-trim fast path -/

/-- C2: whenever the two texts agree after trimming leading/trailing
whitespace (in particular whenever they are equal, for any context size `k`),
`identify_corrections` returns the empty list. -/
theorem claim_C2 (t1 t2 : List Char) (k : Nat) (h : pyStrip t1 = pyStrip t2) :
    identifyCorrections t1 t2 k = [] := by
  simp only [identifyCorrections, if_pos h]

theorem claim_C2_witness :
    pyStrip (sl "  Same text here. ") = pyStrip (sl "Same text here.") ∧
      identifyCorrections (sl "  Same text here. ") (sl "Same text here.") 3 = [] :=
  ⟨by decide, claim_C2 _ _ 3 (by decide)⟩

/-! ## Claim C3: soundness of the final filter -/

/-- C3: every `Correction` returned by `identify_corrections` has
`original_word ≠ corrected_word`, both words non-empty after trimming, and
`original_context ≠ corrected_context`. -/
theorem claim_C3 (t1 t2 : List Char) (k : Nat) (c : Correction)
    (hc : c ∈ identifyCorrections t1 t2 k) :
    c.originalWord ≠ c.correctedWord ∧ pyStrip c.originalWord ≠ [] ∧
      pyStrip c.correctedWord ≠ [] ∧ c.originalContext ≠ c.correctedContext := by
  unfold identifyCorrections at hc
  by_cases h : pyStrip t1 = pyStrip t2
  · rw [if_pos h] at hc
    simp at hc
  · rw [if_neg h] at hc
    have hkeep := List.of_mem_filter hc
    simp only [keepFinal, Bool.and_eq_true, decide_eq_true_eq] at hkeep
    exact ⟨hkeep.1.1.1.1, hkeep.1.2, hkeep.2, hkeep.1.1.2⟩

theorem claim_C3_witness :
    (⟨sl "are", sl "is", sl "this are a test", sl "this is a test"⟩ : Correction) ∈
        identifyCorrections (sl "This are a test.") (sl "This is a test.") 2 ∧
      (sl "are" ≠ sl "is" ∧ pyStrip (sl "are") ≠ [] ∧ pyStrip (sl "is") ≠ [] ∧
        sl "this are a test" ≠ sl "this is a test") :=
  ⟨by decide, claim_C3 (sl "This are a test.") (sl "This is a test.") 2
    ⟨sl "are", sl "is", sl "this are a test", sl "this is a test"⟩ (by decide)⟩

/-! ## Image highlighting: the image branch of `reconstruct_with_highlighting` -/

/-- An EasyOCR result triple `(bbox, text, confidence)` consumed by the image
branch of `reconstruct_with_highlighting`.  The source converts every polygon
coordinate with `int(...)` before any arithmetic, so the polygon is modelled
directly with integer coordinates. -/
structure PyDet where
  bbox : List (Int × Int)
  text : List Char
  conf : ℚ
deriving DecidableEq, Repr

/-- A highlight rectangle `[(word_x1, word_y1), (word_x2, word_y2)]` passed to
`draw.rectangle`. -/
structure PyRect where
  x1 : ℚ
  y1 : ℚ
  x2 : ℚ
  y2 : ℚ
deriving DecidableEq, Repr

/-- Python `min` over a list of integers, totalised with 0 on the empty list
(on which Python raises, aborting the whole image branch without drawing). -/
def listMinI : List Int → Int
  | [] => 0
  | x :: xs => xs.foldl min x

/-- Python `max` over a list of integers, totalised with 0 on the empty list. -/
def listMaxI : List Int → Int
  | [] => 0
  | x :: xs => xs.foldl max x

/-- `x1 = min(x_coords)` with `x_coords = [int(p[0]) for p in bbox]`. -/
def dX1 (d : PyDet) : Int := listMinI (d.bbox.map Prod.fst)

/-- `y1 = min(y_coords)` with `y_coords = [int(p[1]) for p in bbox]`. -/
def dY1 (d : PyDet) : Int := listMinI (d.bbox.map Prod.snd)

/-- `x2 = max(x_coords)`. -/
def dX2 (d : PyDet) : Int := listMaxI (d.bbox.map Prod.fst)

/-- `y2 = max(y_coords)`. -/
def dY2 (d : PyDet) : Int := listMaxI (d.bbox.map Prod.snd)

/-- Duplicate removal keeping first occurrences, the accumulator holding the
elements already seen. -/
def dedupAux : List (List Char) → List (List Char) → List (List Char)
  | _, [] => []
  | seen, x :: xs => if x ∈ seen then dedupAux seen xs else x :: dedupAux (x :: seen) xs

/-- The lower-cased original words of the corrections whose original and
corrected word differ (the comparison happens before lower-casing, as in the
source), with duplicates still present. -/
def corrWords (cs : List Correction) : List (List Char) :=
  (cs.filter fun c => decide ¬c.originalWord = c.correctedWord).map
    fun c => lowerStr c.originalWord

/-- The set `original_corrected_words_set`, modelled as a duplicate-free list in
first-occurrence order (the claims only use membership, which does not depend on
the iteration order of the Python set). -/
def corrWordSet (cs : List Correction) : List (List Char) := dedupAux [] (corrWords cs)

/-- Wordness of the character at index `i` of `t` (`false` past either end);
`isWordChar` is the ASCII fragment of the regex `\w` class used throughout. -/
def wAt (t : List Char) (i : Nat) : Bool :=
  match t[i]? with
  | some c => isWordChar c
  | none => false

/-- The regex word-boundary assertion `\b` at position `i` of `t`: the wordness
of the characters on the two sides of the position differs. -/
def boundaryAt (t : List Char) (i : Nat) : Bool :=
  (if i = 0 then false else wAt t (i - 1)) != wAt t i

/-- Whether the pattern built from `re.escape(w)` between two `\b` assertions (a
literal occurrence of `w` flanked by word boundaries) matches `t` at position
`p`. -/
def matchesAt (w t : List Char) (p : Nat) : Bool :=
  decide (p + w.length ≤ t.length) && decide ((t.drop p).take w.length = w) &&
    boundaryAt t p && boundaryAt t (p + w.length)

/-- The scan of `re.finditer`: leftmost matches, non-overlapping, a zero-length
match advancing the scan position by one.  Fuel-based; `t.length + 1` units of
fuel always suffice because every step advances the position by at least one and
the scan stops beyond `t.length`. -/
def findFrom (w t : List Char) : Nat → Nat → List Nat
  | 0, _ => []
  | fuel + 1, p =>
    if t.length < p then []
    else if matchesAt w t p then p :: findFrom w t fuel (p + max w.length 1)
    else findFrom w t fuel (p + 1)

/-- Start positions of all `re.finditer` matches of the whole-word pattern for
`w` in `t`. -/
def findMatches (w t : List Char) : List Nat := findFrom w t (t.length + 1) 0

/-- `char_width_approx = block_width / len(block_text) if len(block_text) > 0 else 0`
with `block_width = x2 - x1`. -/
def charWidth (d : PyDet) : ℚ :=
  if 0 < d.text.length then Rat.divInt (dX2 d - dX1 d) (d.text.length : Int) else 0

/-- The rectangle drawn for a match starting at character index `start`:
`word_x1 = x1 + start * char_width`, `word_y1 = y1`,
`word_x2 = word_x1 + word_length * char_width`, `word_y2 = y2`.  For the literal
escaped pattern the matched group is `w` itself, so `word_length = len(w)`. -/
def rectFor (d : PyDet) (w : List Char) (start : Nat) : PyRect :=
  ⟨(dX1 d : ℚ) + (start : ℚ) * charWidth d, (dY1 d : ℚ),
    (dX1 d : ℚ) + (start : ℚ) * charWidth d + (w.length : ℚ) * charWidth d, (dY2 d : ℚ)⟩

/-- All rectangles drawn for one detection: for every word of the set, one
rectangle per `re.finditer` match on the lower-cased block text. -/
def detRects (ws : List (List Char)) (d : PyDet) : List PyRect :=
  ws.flatMap fun w => (findMatches w (lowerStr d.text)).map fun i => rectFor d w i

/-- The highlight rectangles drawn by the image branch of
`reconstruct_with_highlighting`: none when `corrections` is empty (the function
returns the untouched image), otherwise every detection with
`confidence >= 0.5` contributes its word rectangles and every detection below
the threshold is skipped. -/
def highlightImage (dets : List PyDet) (cs : List Correction) : List PyRect :=
  if cs = [] then []
  else dets.flatMap fun d => if mkRat 1 2 ≤ d.conf then detRects (corrWordSet cs) d else []

/-! ## Claim C6: detections below the confidence threshold are skipped -/

/-- Claim C6: every highlight rectangle emitted by the image highlighter comes
from a detection of the input list whose confidence is at least the threshold
0.5; a detection below the threshold contributes no rectangle at all. -/
theorem claim_C6 (dets : List PyDet) (cs : List Correction) (r : PyRect)
    (hr : r ∈ highlightImage dets cs) :
    ∃ d ∈ dets, mkRat 1 2 ≤ d.conf ∧ r ∈ detRects (corrWordSet cs) d := by
  unfold highlightImage at hr
  split at hr
  · cases hr
  · rcases List.mem_flatMap.mp hr with ⟨d, hd, hrd⟩
    by_cases hc : mkRat 1 2 ≤ d.conf
    · rw [if_pos hc] at hrd
      exact ⟨d, hd, hc, hrd⟩
    · rw [if_neg hc] at hrd
      cases hrd

unseal Rat.add Rat.mul in
theorem claim_C6_witness :
    (rectFor ⟨[(0, 0), (100, 0), (100, 20), (0, 20)], sl "This are wrong", mkRat 9 10⟩
        (sl "are") 5 ∈
      highlightImage
        [⟨[(0, 0), (100, 0), (100, 20), (0, 20)], sl "This are wrong", mkRat 9 10⟩]
        [⟨sl "are", sl "is", [], []⟩]) ∧
    ∃ d ∈ [(⟨[(0, 0), (100, 0), (100, 20), (0, 20)], sl "This are wrong",
        mkRat 9 10⟩ : PyDet)],
      mkRat 1 2 ≤ d.conf ∧
        rectFor ⟨[(0, 0), (100, 0), (100, 20), (0, 20)], sl "This are wrong", mkRat 9 10⟩
            (sl "are") 5 ∈
          detRects (corrWordSet [⟨sl "are", sl "is", [], []⟩]) d :=
  ⟨by decide, claim_C6 _ _ _ (by decide)⟩

/-! ## Claim C9: the interpolated highlight rectangle of a whole-word match -/

theorem slice_getElem (t w : List Char) (p : Nat) (hs : (t.drop p).take w.length = w)
    (j : Nat) (hj : j < w.length) : t[p + j]? = w[j]? := by
  have h1 : ((t.drop p).take w.length)[j]? = w[j]? := by rw [hs]
  rw [List.getElem?_take_of_lt hj, List.getElem?_drop] at h1
  exact h1

theorem matchesAt_no_overlap (w t : List Char) (hall : ∀ c ∈ w, isWordChar c = true)
    (p q : Nat) (hp : matchesAt w t p = true) (h1 : p < q) (h2 : q < p + w.length) :
    matchesAt w t q = false := by
  simp only [matchesAt, Bool.and_eq_true, decide_eq_true_eq] at hp
  obtain ⟨⟨⟨hlen, hsl⟩, hb1⟩, hb2⟩ := hp
  have hwAt : ∀ j, p ≤ j → j < p + w.length → wAt t j = true := by
    intro j hj1 hj2
    have hj : j - p < w.length := by omega
    have ht := slice_getElem t w p hsl (j - p) hj
    have hpj : p + (j - p) = j := by omega
    rw [hpj] at ht
    have hwj : w[j - p]? = some (w[j - p]) := List.getElem?_eq_getElem hj
    rw [hwj] at ht
    simp only [wAt, ht]
    exact hall _ (List.getElem?_mem hwj)
  have hq1 : wAt t (q - 1) = true := hwAt (q - 1) (by omega) (by omega)
  have hq2 : wAt t q = true := hwAt q (by omega) (by omega)
  have hb : boundaryAt t q = false := by
    unfold boundaryAt
    rw [if_neg (by omega : ¬q = 0), hq1, hq2]
    rfl
  simp [matchesAt, hb]

theorem findFrom_ge (w t : List Char) :
    ∀ fuel p q, q ∈ findFrom w t fuel p → p ≤ q := by
  intro fuel
  induction fuel with
  | zero => intro p q hq; cases hq
  | succ fuel ih =>
    intro p q hq
    rw [findFrom] at hq
    split at hq
    · cases hq
    · split at hq
      · rcases List.mem_cons.mp hq with hq | hq
        · omega
        · have := ih _ _ hq; omega
      · have := ih _ _ hq; omega

theorem findFrom_count (w t : List Char) (hwne : w ≠ [])
    (hall : ∀ c ∈ w, isWordChar c = true) :
    ∀ fuel p q, t.length + 1 ≤ fuel + p → p ≤ q → matchesAt w t q = true →
      (findFrom w t fuel p).count q = 1 := by
  have hm1 : 1 ≤ w.length := by
    cases w with
    | nil => exact absurd rfl hwne
    | cons c cs => simp
  intro fuel
  induction fuel with
  | zero =>
    intro p q hfuel hpq hq
    simp only [matchesAt, Bool.and_eq_true, decide_eq_true_eq] at hq
    obtain ⟨⟨⟨hlen, _⟩, _⟩, _⟩ := hq
    omega
  | succ fuel ih =>
    intro p q hfuel hpq hq
    have hqlen : q + w.length ≤ t.length := by
      have h := hq
      simp only [matchesAt, Bool.and_eq_true, decide_eq_true_eq] at h
      exact h.1.1.1
    rw [findFrom, if_neg (by omega : ¬t.length < p)]
    by_cases hp : matchesAt w t p = true
    · rw [if_pos hp]
      by_cases hqp : q = p
      · subst hqp
        have h0 : (findFrom w t fuel (q + max w.length 1)).count q = 0 := by
          rw [List.count_eq_zero]
          intro hmem
          have := findFrom_ge w t fuel _ _ hmem
          omega
        rw [List.count_cons_self, h0]
      · have hge : p + w.length ≤ q := by
          by_contra hlt
          push_neg at hlt
          have := matchesAt_no_overlap w t hall p q hp (by omega) (by omega)
          rw [hq] at this
          cases this
        have hmax : max w.length 1 = w.length := by omega
        rw [List.count_cons_of_ne hqp, hmax]
        exact ih (p + w.length) q (by omega) (by omega) hq
    · rw [if_neg hp]
      have hne : ¬p = q := fun h => hp (h ▸ hq)
      exact ih (p + 1) q (by omega) (by omega) hq

/-- Claim C9: for a detection at or above the confidence threshold with nonempty
text, each whole-word occurrence (here of a nonempty all-word-character member
`w` of the corrected-word set, matching at index `i` of the lower-cased text)
produces a rectangle of the output, appears exactly once in the match list of
its detection, and that rectangle has horizontal span from
`x1 + i * (x2 - x1) / L` to `x1 + (i + len(w)) * (x2 - x1) / L` and the full
vertical span `[y1, y2]` of the detection box. -/
theorem claim_C9 (dets : List PyDet) (cs : List Correction) (d : PyDet)
    (w : List Char) (i : Nat) (hd : d ∈ dets) (hconf : mkRat 1 2 ≤ d.conf)
    (hL : 0 < d.text.length) (hw : w ∈ corrWordSet cs) (hwne : w ≠ [])
    (hall : ∀ c ∈ w, isWordChar c = true)
    (hm : matchesAt w (lowerStr d.text) i = true) :
    rectFor d w i ∈ highlightImage dets cs ∧
    (findMatches w (lowerStr d.text)).count i = 1 ∧
    rectFor d w i =
      ⟨(dX1 d : ℚ) + (i : ℚ) * (((dX2 d : ℚ) - (dX1 d : ℚ)) / (d.text.length : ℚ)),
        (dY1 d : ℚ),
        (dX1 d : ℚ) +
          ((i : ℚ) + (w.length : ℚ)) * (((dX2 d : ℚ) - (dX1 d : ℚ)) / (d.text.length : ℚ)),
        (dY2 d : ℚ)⟩ := by
  have hcsne : ¬cs = [] := by
    intro h
    subst h
    simp [corrWordSet, corrWords, dedupAux] at hw
  have hcount : (findMatches w (lowerStr d.text)).count i = 1 := by
    unfold findMatches
    exact findFrom_count w (lowerStr d.text) hwne hall ((lowerStr d.text).length + 1) 0 i
      (by omega) (Nat.zero_le i) hm
  have hmem : i ∈ findMatches w (lowerStr d.text) := by
    by_contra hni
    have h0 := List.count_eq_zero.mpr hni
    omega
  refine ⟨?_, hcount, ?_⟩
  · unfold highlightImage
    rw [if_neg hcsne]
    refine List.mem_flatMap.mpr ⟨d, hd, ?_⟩
    rw [if_pos hconf]
    exact List.mem_flatMap.mpr ⟨w, hw, List.mem_map.mpr ⟨i, hmem, rfl⟩⟩
  · have hcw : charWidth d = ((dX2 d : ℚ) - (dX1 d : ℚ)) / (d.text.length : ℚ) := by
      unfold charWidth
      rw [if_pos hL, Rat.divInt_eq_div]
      push_cast
      ring_nf
    simp only [rectFor, hcw, PyRect.mk.injEq]
    exact ⟨by ring_nf, trivial, by ring, trivial⟩

theorem claim_C9_witness :
    (⟨[(0, 0), (100, 0), (100, 20), (0, 20)], sl "This are wrong", mkRat 9 10⟩ : PyDet) ∈
        [(⟨[(0, 0), (100, 0), (100, 20), (0, 20)], sl "This are wrong",
          mkRat 9 10⟩ : PyDet)] ∧
    mkRat 1 2 ≤ mkRat 9 10 ∧
    0 < (sl "This are wrong").length ∧
    sl "are" ∈ corrWordSet [⟨sl "are", sl "is", [], []⟩] ∧
    sl "are" ≠ [] ∧
    (∀ c ∈ sl "are", isWordChar c = true) ∧
    matchesAt (sl "are") (lowerStr (sl "This are wrong")) 5 = true ∧
    (rectFor ⟨[(0, 0), (100, 0), (100, 20), (0, 20)], sl "This are wrong", mkRat 9 10⟩
        (sl "are") 5 ∈
      highlightImage
        [⟨[(0, 0), (100, 0), (100, 20), (0, 20)], sl "This are wrong", mkRat 9 10⟩]
        [⟨sl "are", sl "is", [], []⟩] ∧
    (findMatches (sl "are")
      (lowerStr (PyDet.text ⟨[(0, 0), (100, 0), (100, 20), (0, 20)],
        sl "This are wrong", mkRat 9 10⟩))).count 5 = 1 ∧
    rectFor ⟨[(0, 0), (100, 0), (100, 20), (0, 20)], sl "This are wrong", mkRat 9 10⟩
        (sl "are") 5 =
      ⟨(dX1 ⟨[(0, 0), (100, 0), (100, 20), (0, 20)], sl "This are wrong", mkRat 9 10⟩ : ℚ) +
          (5 : ℚ) *
            (((dX2 ⟨[(0, 0), (100, 0), (100, 20), (0, 20)], sl "This are wrong",
                mkRat 9 10⟩ : ℚ) -
              (dX1 ⟨[(0, 0), (100, 0), (100, 20), (0, 20)], sl "This are wrong",
                mkRat 9 10⟩ : ℚ)) /
              ((PyDet.text ⟨[(0, 0), (100, 0), (100, 20), (0, 20)], sl "This are wrong",
                mkRat 9 10⟩).length : ℚ)),
        (dY1 ⟨[(0, 0), (100, 0), (100, 20), (0, 20)], sl "This are wrong", mkRat 9 10⟩ : ℚ),
        (dX1 ⟨[(0, 0), (100, 0), (100, 20), (0, 20)], sl "This are wrong", mkRat 9 10⟩ : ℚ) +
          ((5 : ℚ) + ((sl "are").length : ℚ)) *
            (((dX2 ⟨[(0, 0), (100, 0), (100, 20), (0, 20)], sl "This are wrong",
                mkRat 9 10⟩ : ℚ) -
              (dX1 ⟨[(0, 0), (100, 0), (100, 20), (0, 20)], sl "This are wrong",
                mkRat 9 10⟩ : ℚ)) /
              ((PyDet.text ⟨[(0, 0), (100, 0), (100, 20), (0, 20)], sl "This are wrong",
                mkRat 9 10⟩).length : ℚ)),
        (dY2 ⟨[(0, 0), (100, 0), (100, 20), (0, 20)], sl "This are wrong",
          mkRat 9 10⟩ : ℚ)⟩) :=
  ⟨by simp, by decide, by decide, by decide, by decide, by decide, by decide,
    claim_C9 _ _ _ _ _ (by simp) (by decide) (by decide) (by decide) (by decide)
      (by decide) (by decide)⟩

/-! ## HTML highlighting: the html branch of `reconstruct_with_highlighting` -/

/-- The token stream `re.findall(r'(\b\w+\b|\W+)', text)` of the html branch:
the maximal runs of word characters and of non-word characters, in order
(the two alternatives of the pattern are disjoint and each matches a maximal
run, so nothing is lost). -/
def runsBoth : List Char → List (List Char)
  | [] => []
  | c :: cs =>
    match cs, runsBoth cs with
    | d :: _, run :: runs =>
      if isWordChar c == isWordChar d then (c :: run) :: runs else [c] :: run :: runs
    | _, r => [c] :: r

theorem runsBoth_nil : runsBoth [] = [] := rfl

theorem runsBoth_cons (c : Char) (cs : List Char) :
    runsBoth (c :: cs) =
      match cs, runsBoth cs with
      | d :: _, run :: runs =>
        if isWordChar c == isWordChar d then (c :: run) :: runs else [c] :: run :: runs
      | _, r => [c] :: r := rfl

/-- `re.fullmatch(r'\b\w+\b', item)`: the token is a nonempty run of word
characters (for such a token the two boundary assertions hold automatically at
the ends of the string). -/
def isWordTok (item : List Char) : Bool := !item.isEmpty && item.all isWordChar

/-- The action of the token loop on one token: a word token whose lower-cased
form lies in the corrected-word set is wrapped in the literal text
`<u>...</u>`; every other token passes through unchanged. -/
def hlTok (ws : List (List Char)) (item : List Char) : List Char :=
  if isWordTok item && decide (lowerStr item ∈ ws) then sl "<u>" ++ item ++ sl "</u>"
  else item

/-- The action of the html branch on the text of one text node: if some token
was modified, the node content is replaced by the concatenated rebuilt token
stream (stored as a `NavigableString`, hence as literal text); otherwise the
node is left untouched. -/
def hlText (ws : List (List Char)) (s : List Char) : List Char :=
  if (runsBoth s).any (fun item => isWordTok item && decide (lowerStr item ∈ ws))
  then (runsBoth s).flatMap (hlTok ws)
  else s

mutual
/-- A parsed document node: a text node (`NavigableString`) or an element with
tag name, attributes and children. -/
inductive HNode : Type where
  | txt (s : List Char)
  | elem (tag : List Char) (attrs : List (List Char × List Char)) (children : HForest)
/-- A list of sibling document nodes (a separate type so that all functions on
the tree are mutual structural recursions). -/
inductive HForest : Type where
  | fnil
  | fcons (n : HNode) (f : HForest)
end

mutual
/-- The per-node traversal of the html branch: every text node is rewritten by
`hlText` unless its parent is a `script` or `style` element, which is skipped;
element nodes keep their tag and attributes and recurse into their children
(matching the flat `soup.find_all(string=True)` loop with `replace_with`). -/
def highlightH (ws : List (List Char)) : List Char → HNode → HNode
  | ptag, .txt s =>
    if ptag = sl "script" ∨ ptag = sl "style" then .txt s else .txt (hlText ws s)
  | _, .elem tag attrs cs => .elem tag attrs (highlightF ws tag cs)
def highlightF (ws : List (List Char)) : List Char → HForest → HForest
  | _, .fnil => .fnil
  | tag, .fcons n f => .fcons (highlightH ws tag n) (highlightF ws tag f)
end

mutual
/-- The text nodes of a tree with the tag name of their parent, in document
order (the first component is the parent tag, the second the node text). -/
def textsH : List Char → HNode → List (List Char × List Char)
  | ptag, .txt s => [(ptag, s)]
  | _, .elem tag _ cs => textsF tag cs
def textsF : List Char → HForest → List (List Char × List Char)
  | _, .fnil => []
  | tag, .fcons n f => textsH tag n ++ textsF tag f
end

/-- The output escaping of the bs4 minimal formatter on text content:
`&` becomes `&amp;`, `<` becomes `&lt;`, `>` becomes `&gt;`. -/
def escapeChar (c : Char) : List Char :=
  if c = '&' then sl "&amp;" else if c = '<' then sl "&lt;" else if c = '>' then sl "&gt;"
  else [c]

def escapeH (s : List Char) : List Char := s.flatMap escapeChar

def serializeAttrs (attrs : List (List Char × List Char)) : List Char :=
  attrs.flatMap fun a => ' ' :: (a.1 ++ '=' :: '"' :: (escapeH a.2 ++ ['"']))

mutual
/-- `str(soup)`: serialisation of the tree, escaping the content of every text
node with the minimal formatter (which is what turns a `<u>` marker stored as
literal text into `&lt;u&gt;`). -/
def serializeH : HNode → List Char
  | .txt s => escapeH s
  | .elem tag attrs cs =>
    sl "<" ++ tag ++ serializeAttrs attrs ++ sl ">" ++ serializeF cs ++ sl "</" ++ tag ++
      sl ">"
def serializeF : HForest → List Char
  | .fnil => []
  | .fcons n f => serializeH n ++ serializeF f
end

/-! ### The html tokenizer versus the word tokenizer of `identify_corrections` -/

theorem isWordTok_singleton (c : Char) : isWordTok [c] = isWordChar c := by
  simp [isWordTok]

theorem isWordTok_run_true (run : List Char) (hne : run ≠ [])
    (hall : ∀ x ∈ run, isWordChar x = true) : isWordTok run = true := by
  have h1 : run.isEmpty = false := by
    cases run with
    | nil => exact absurd rfl hne
    | cons a l => rfl
  have h2 : run.all isWordChar = true := List.all_eq_true.mpr hall
  unfold isWordTok
  rw [h1, h2]
  rfl

theorem isWordTok_run_false (run : List Char) (x : Char) (hx : x ∈ run)
    (hxf : isWordChar x = false) : isWordTok run = false := by
  have h2 : run.all isWordChar = false := by
    cases hall : run.all isWordChar
    · rfl
    · have := List.all_eq_true.mp hall x hx
      rw [hxf] at this
      cases this
  unfold isWordTok
  rw [h2, Bool.and_false]

theorem runsBoth_head (c : Char) (cs : List Char) :
    ∃ run runs, runsBoth (c :: cs) = run :: runs ∧ run ≠ [] ∧
      ∀ x ∈ run, isWordChar x = isWordChar c := by
  induction cs generalizing c with
  | nil =>
    refine ⟨[c], [], rfl, by simp, ?_⟩
    intro x hx
    rw [List.mem_singleton] at hx
    rw [hx]
  | cons d ds ih =>
    obtain ⟨run, runs, hrr, hne, hhom⟩ := ih d
    rw [runsBoth_cons, hrr]
    dsimp only
    by_cases h : isWordChar c = isWordChar d
    · rw [if_pos (by rw [h]; exact beq_self_eq_true _ : (isWordChar c == isWordChar d) = true)]
      refine ⟨c :: run, runs, rfl, by simp, ?_⟩
      intro x hx
      rcases List.mem_cons.mp hx with hx | hx
      · rw [hx]
      · rw [hhom x hx, h]
    · have hbe : (isWordChar c == isWordChar d) = false := by
        cases hc : isWordChar c <;> cases hd : isWordChar d <;>
          first
          | rfl
          | (exfalso; rw [hc, hd] at h; exact h rfl)
      rw [if_neg (by rw [hbe]; exact Bool.false_ne_true)]
      refine ⟨[c], run :: runs, rfl, by simp, ?_⟩
      intro x hx
      rw [List.mem_singleton] at hx
      rw [hx]

theorem wordRuns_eq_filter : ∀ s : List Char, wordRuns s = (runsBoth s).filter isWordTok := by
  intro s
  induction s with
  | nil => rfl
  | cons c cs ih =>
    cases cs with
    | nil =>
      by_cases hc : isWordChar c = true
      · rw [wordRuns_cons, wordRuns_nil, if_pos hc, runsBoth_cons, runsBoth_nil]
        dsimp only
        rw [List.filter_cons, isWordTok_singleton, if_pos hc, List.filter_nil]
      · rw [wordRuns_cons, wordRuns_nil, if_neg hc, runsBoth_cons, runsBoth_nil]
        dsimp only
        rw [List.filter_cons, isWordTok_singleton, if_neg hc, List.filter_nil]
    | cons d ds =>
      obtain ⟨run, runs, hrr, hne, hhom⟩ := runsBoth_head d ds
      by_cases hd : isWordChar d = true
      · have hrunT : isWordTok run = true :=
          isWordTok_run_true run hne (fun x hx => by rw [hhom x hx, hd])
        have hW : wordRuns (d :: ds) = run :: runs.filter isWordTok := by
          rw [ih, hrr, List.filter_cons, if_pos hrunT]
        by_cases hc : isWordChar c = true
        · have hctok : isWordTok (c :: run) = true := by
            refine isWordTok_run_true _ (by simp) ?_
            intro x hx
            rcases List.mem_cons.mp hx with hx | hx
            · rw [hx]; exact hc
            · rw [hhom x hx, hd]
          rw [wordRuns_cons, if_pos hc, hW]
          dsimp only
          rw [if_pos hd, runsBoth_cons, hrr]
          dsimp only
          rw [if_pos (by rw [hc, hd]; decide : (isWordChar c == isWordChar d) = true),
            List.filter_cons, if_pos hctok]
        · have hcF : isWordChar c = false := Bool.eq_false_iff.mpr hc
          have hbe : (isWordChar c == isWordChar d) = false := by rw [hcF, hd]; rfl
          rw [wordRuns_cons, if_neg hc, hW, runsBoth_cons, hrr]
          dsimp only
          rw [if_neg (by rw [hbe]; exact Bool.false_ne_true), List.filter_cons,
            isWordTok_singleton, if_neg hc, List.filter_cons, if_pos hrunT]
      · have hdF : isWordChar d = false := Bool.eq_false_iff.mpr hd
        obtain ⟨x0, hx0⟩ := List.exists_mem_of_ne_nil run hne
        have hrunF : isWordTok run = false :=
          isWordTok_run_false run x0 hx0 (by rw [hhom x0 hx0, hdF])
        have hW : wordRuns (d :: ds) = runs.filter isWordTok := by
          rw [ih, hrr, List.filter_cons, if_neg (by rw [hrunF]; exact Bool.false_ne_true)]
        by_cases hc : isWordChar c = true
        · have hbe : (isWordChar c == isWordChar d) = false := by rw [hc, hdF]; rfl
          rw [wordRuns_cons, if_pos hc, hW, runsBoth_cons, hrr]
          dsimp only
          rw [if_neg (by rw [hbe]; exact Bool.false_ne_true), List.filter_cons,
            isWordTok_singleton, if_pos hc, List.filter_cons,
            if_neg (by rw [hrunF]; exact Bool.false_ne_true)]
          cases hF : runs.filter isWordTok with
          | nil => dsimp only
          | cons w1 ws1 =>
            dsimp only
            rw [if_neg hd]
        · have hcF : isWordChar c = false := Bool.eq_false_iff.mpr hc
          have hctokF : isWordTok (c :: run) = false :=
            isWordTok_run_false _ c (by simp) hcF
          rw [wordRuns_cons, if_neg hc, hW, runsBoth_cons, hrr]
          dsimp only
          rw [if_pos (by rw [hcF, hdF]; decide : (isWordChar c == isWordChar d) = true),
            List.filter_cons, if_neg (by rw [hctokF]; exact Bool.false_ne_true)]

theorem hlText_id (ws : List (List Char)) (s : List Char)
    (h : ∀ w ∈ wordsOf s, w ∉ ws) : hlText ws s = s := by
  unfold hlText
  rw [if_neg]
  intro hany
  rw [List.any_eq_true] at hany
  obtain ⟨item, hitem, hcond⟩ := hany
  rw [Bool.and_eq_true, decide_eq_true_eq] at hcond
  have hinw : item ∈ wordRuns s := by
    rw [wordRuns_eq_filter]
    exact List.mem_filter.mpr ⟨hitem, hcond.1⟩
  exact h (lowerStr item) (List.mem_map.mpr ⟨item, hinw, rfl⟩) hcond.2

mutual
theorem texts_highlightH (ws : List (List Char)) :
    ∀ (ptag : List Char) (n : HNode),
      textsH ptag (highlightH ws ptag n) =
        (textsH ptag n).map fun pr =>
          (pr.1, if pr.1 = sl "script" ∨ pr.1 = sl "style" then pr.2 else hlText ws pr.2)
  | ptag, .txt s => by
    by_cases h : ptag = sl "script" ∨ ptag = sl "style"
    · simp [highlightH, textsH, h]
    · simp [highlightH, textsH, h]
  | ptag, .elem tag attrs cs => by
    simp only [highlightH, textsH]
    exact texts_highlightF ws tag cs
theorem texts_highlightF (ws : List (List Char)) :
    ∀ (tag : List Char) (f : HForest),
      textsF tag (highlightF ws tag f) =
        (textsF tag f).map fun pr =>
          (pr.1, if pr.1 = sl "script" ∨ pr.1 = sl "style" then pr.2 else hlText ws pr.2)
  | _, .fnil => by simp [highlightF, textsF]
  | tag, .fcons n f => by
    simp only [highlightF, textsF, List.map_append]
    rw [texts_highlightH ws tag n, texts_highlightF ws tag f]
end

/-! ## Claim C7: tree highlighting preserves non-matching text nodes -/

/-- Claim C7: the traversal rewrites the text nodes exactly in place, leaving
the text of every node whose parent is a `script` or `style` element
byte-identical; and the text of every node none of whose word tokens
(lower-cased) lies in the corrected-word set is also left byte-identical, so
only nodes containing at least one matching token are replaced. -/
theorem claim_C7 (ws : List (List Char)) (ptag : List Char) (n : HNode) :
    textsH ptag (highlightH ws ptag n) =
      (textsH ptag n).map (fun pr =>
        (pr.1, if pr.1 = sl "script" ∨ pr.1 = sl "style" then pr.2 else hlText ws pr.2)) ∧
    ∀ s : List Char, (∀ w ∈ wordsOf s, w ∉ ws) → hlText ws s = s :=
  ⟨texts_highlightH ws ptag n, fun s h => hlText_id ws s h⟩

theorem claim_C7_witness :
    (textsH (sl "body")
        (highlightH [sl "are"] (sl "body")
          (.elem (sl "p") [] (.fcons (.txt (sl "This are wrong.")) .fnil))) =
      (textsH (sl "body")
          (.elem (sl "p") [] (.fcons (.txt (sl "This are wrong.")) .fnil))).map
        (fun pr =>
          (pr.1, if pr.1 = sl "script" ∨ pr.1 = sl "style" then pr.2
            else hlText [sl "are"] pr.2))) ∧
    ((∀ w ∈ wordsOf (sl "Nothing to do."), w ∉ [sl "are"]) ∧
      hlText [sl "are"] (sl "Nothing to do.") = sl "Nothing to do.") :=
  ⟨(claim_C7 [sl "are"] (sl "body")
      (.elem (sl "p") [] (.fcons (.txt (sl "This are wrong.")) .fnil))).1,
    by decide,
    (claim_C7 [sl "are"] (sl "body")
      (.elem (sl "p") [] (.fcons (.txt (sl "This are wrong.")) .fnil))).2
      (sl "Nothing to do.") (by decide)⟩

/-! ## Claim C8: the concrete highlighted paragraph -/

/-- Claim C8 (refuted by the code): on `<p>This are wrong.</p>` with the single
Correction from `are` to `is`, the claim expects the serialization
`<p>This <u>are</u> wrong.</p>` with a real `<u>` element.  The code instead
stores the marker inside a `NavigableString` as literal text, so serialisation
escapes it and the document renders the marker as visible text: the actual
serialization is `<p>This &lt;u&gt;are&lt;/u&gt; wrong.</p>`, which differs
from the claimed output. -/
theorem claim_C8 :
    serializeH (highlightH (corrWordSet [⟨sl "are", sl "is", [], []⟩]) (sl "body")
        (.elem (sl "p") [] (.fcons (.txt (sl "This are wrong.")) .fnil))) =
      sl "<p>This &lt;u&gt;are&lt;/u&gt; wrong.</p>" ∧
    serializeH (highlightH (corrWordSet [⟨sl "are", sl "is", [], []⟩]) (sl "body")
        (.elem (sl "p") [] (.fcons (.txt (sl "This are wrong.")) .fnil))) ≠
      sl "<p>This <u>are</u> wrong.</p>" := by
  constructor
  · decide
  · decide

end GrammarProc
